import Mathlib

/-
Verification of the dynamic keybinding registry of mcomix
(src/mcomix/keybindings.py).

The registry keeps three dictionaries:
  action_to_callback : action name -> (callback, args, kwargs)
  action_to_bindings : action name -> list of (key code, modifier mask)
  binding_to_action  : (key code, modifier mask) -> action name

Python dicts are modelled as association lists in insertion order (Python
dict keys are unique and iteration order is the insertion order we model).
`defaultdict(list)` reads of a missing key insert an empty list, which we
model explicitly.  Python exceptions propagate but mutations made before
the raise persist, so every fallible operation returns the state at raise
time together with the error.  gtk.accelerator_parse / gtk.accelerator_name
are external library functions; they are passed in as parameters.
-/

set_option maxHeartbeats 1000000

namespace Mcomix

/-- A physical binding `(key code, modifier mask)` as produced by
gtk.accelerator_parse.  Modifier masks are only combined with bitwise and,
so plain naturals suffice. -/
abbrev Binding := Nat × Nat

/-- The `(callback, args, kwargs)` triple stored by `register`.  The
callback itself is external application code, so we record an identifier
together with the positional and keyword argument bags that would be
applied to it. -/
structure Callback where
  fn : Nat
  args : List Nat
  kwargs : List (String × Nat)
deriving DecidableEq

/-- Association-list lookup, modelling Python `d[k]` / `d.get(k)`. -/
def alLookup {κ β : Type} [DecidableEq κ] : List (κ × β) → κ → Option β
  | [], _ => none
  | (k, v) :: l, k2 => if k = k2 then some v else alLookup l k2

/-- Python dict assignment `d[k] = v`: update the entry in place if the key
is present, else append a new entry at the end (insertion order). -/
def alInsert {κ β : Type} [DecidableEq κ] : List (κ × β) → κ → β → List (κ × β)
  | [], k, v => [(k, v)]
  | (k2, v2) :: l, k, v => if k2 = k then (k, v) :: l else (k2, v2) :: alInsert l k v

/-- Python `d.pop(k)`: drop the entry for `k` (first occurrence). -/
def alPop {κ β : Type} [DecidableEq κ] : List (κ × β) → κ → List (κ × β)
  | [], _ => []
  | (k2, v2) :: l, k => if k2 = k then l else (k2, v2) :: alPop l k

/-- The keys of an association list, in order. -/
def alKeys {κ β : Type} : List (κ × β) → List κ
  | [] => []
  | (k, _) :: l => k :: alKeys l

/-- A `defaultdict(list)` read of a possibly missing key: when the key is
absent an empty list is inserted at the end. -/
def alEnsure {κ β : Type} [DecidableEq κ] (l : List (κ × List β)) (k : κ) :
    List (κ × List β) :=
  match alLookup l k with
  | some _ => l
  | none => l ++ [(k, [])]

/-- Python `list.remove(x)`: drop the first occurrence of `x`. -/
def lrm {α : Type} [DecidableEq α] : List α → α → List α
  | [], _ => []
  | x :: l, a => if x = a then l else x :: lrm l a

/-- Python `list.index(x)`: index of the first occurrence of `x`. -/
def lidx {α : Type} [DecidableEq α] : List α → α → Option Nat
  | [], _ => none
  | x :: l, a => if x = a then some 0 else (lidx l a).map (· + 1)

/-- Python `list.pop(i)` immediately followed by `list.insert(i, v)`:
replace the element at position `i`. -/
def lset {α : Type} : List α → Nat → α → List α
  | [], _, _ => []
  | _ :: l, 0, v => v :: l
  | x :: l, i + 1, v => x :: lset l i v

/-- The mutable state of `_KeybindingManager`: the three dictionaries,
the conflict warnings emitted by `log.warning` during `register`
(recorded as (binding, new claimant, current owner) events), and a count
of the `save()` calls performed so far. -/
structure KMState where
  action_to_callback : List (String × Callback)
  action_to_bindings : List (String × List Binding)
  binding_to_action : List (Binding × String)
  warnings : List (Binding × String × String)
  saveCount : Nat
deriving DecidableEq

/-- The keys of the BINDING_INFO catalog, in source order, including the
nine generated entries "execute command 1" .. "execute command 9". -/
def BINDING_INFO : List String :=
  ["previous page", "next page", "previous page ff", "next page ff",
   "previous page dynamic", "next page dynamic",
   "scroll left bottom", "scroll middle bottom", "scroll right bottom",
   "scroll left middle", "scroll middle", "scroll right middle",
   "scroll left top", "scroll middle top", "scroll right top",
   "exit fullscreen", "toggle fullscreen",
   "zoom in", "zoom out", "zoom original",
   "scroll down", "scroll up", "scroll right", "scroll left",
   "smart scroll up", "smart scroll down",
   "osd panel"] ++
  (List.range 9).map (fun i => "execute command " ++ toString (i + 1))

/-- The Python exceptions the module can raise. -/
inductive PyErr where
  | assertionError
  | keyError
  | valueError
deriving DecidableEq

/-- Outcome of a fallible operation.  A Python exception propagates but the
mutations made before the raise persist, so `err` carries the state at
raise time. -/
inductive Res (α : Type) where
  | ok (st : KMState) (val : α)
  | err (st : KMState) (e : PyErr)
deriving DecidableEq

/-- State reached by an operation, whether it returned or raised. -/
def resState {α : Type} : Res α → KMState
  | Res.ok st _ => st
  | Res.err st _ => st

/-- True when the operation returned without raising. -/
def isOk {α : Type} : Res α → Bool
  | Res.ok _ _ => true
  | Res.err _ _ => false

/-- The error raised by an operation, if any. -/
def errOf {α : Type} : Res α → Option PyErr
  | Res.ok _ _ => none
  | Res.err _ e => some e

/-- The binding list currently on record for an action (empty when the
action has no entry). -/
def bindingsOf (st : KMState) (a : String) : List Binding :=
  (alLookup st.action_to_bindings a).getD []

/-- One iteration of the binding-adoption loop in `register`: a binding
already claimed by a different action only produces a conflict warning and
is left alone; an unclaimed binding is installed in both views. -/
def regStep (name : String) (st : KMState) (kc : Binding) : KMState :=
  match alLookup st.binding_to_action kc with
  | some owner =>
      if owner ≠ name then
        { st with warnings := st.warnings ++ [(kc, name, owner)] }
      else
        st
  | none =>
      { st with
        binding_to_action := alInsert st.binding_to_action kc name,
        action_to_bindings :=
          alInsert st.action_to_bindings name (bindingsOf st name ++ [kc]) }

/-- The adoption loop of `register` when `keycodes` aliases the stored
list `self._action_to_bindings[name]`: Python iterates the live list, so
an append inside the loop extends the iteration.  An appended binding is
in `binding_to_action` when it is visited and never appends again, so at
most `length` appends happen and fuel `2 * length + 1` is never
exhausted. -/
def regLoopA (name : String) : Nat → Nat → KMState → KMState
  | 0, _, st => st
  | fuel + 1, i, st =>
      let cur := bindingsOf st name
      if h : i < cur.length then
        regLoopA name fuel (i + 1) (regStep name st (cur.get ⟨i, h⟩))
      else st

/-- The view updates performed by a valid `register` call: the defaultdict
read of the stored bindings, then the adoption loop (over the parsed
default strings when nothing is stored, else over the aliased stored
list). -/
def registerViews (accParse : String → Binding) (name : String)
    (bindings : List String) (st : KMState) : KMState :=
  let st0 : KMState :=
    { st with action_to_bindings := alEnsure st.action_to_bindings name }
  let stored := bindingsOf st0 name
  if stored = [] then
    (bindings.map accParse).foldl (regStep name) st0
  else
    regLoopA name (2 * stored.length + 1) 0 st0

/-- `_KeybindingManager.register`.  Asserts the action name is in the
catalog, reads the stored bindings (a defaultdict read), falls back to
parsing the supplied default binding strings when none are stored, runs
the adoption loop, and finally (re)installs the callback triple. -/
def register (accParse : String → Binding) (name : String)
    (bindings : List String) (cb : Callback) (st : KMState) : Res Unit :=
  if name ∈ BINDING_INFO then
    Res.ok
      { registerViews accParse name bindings st with
        action_to_callback :=
          alInsert (registerViews accParse name bindings st).action_to_callback
            name cb } ()
  else Res.err st PyErr.assertionError

/-- The detach block of `edit_accel` run when the new binding `nb` is
already mapped to `owner`: pop `nb` from `binding_to_action`, then remove
it from the owner's binding list (a defaultdict read followed by
`list.remove`, which raises ValueError when absent). -/
def detachNb (st : KMState) (nb : Binding) (owner : String) : Res Unit :=
  let st1 : KMState := { st with binding_to_action := alPop st.binding_to_action nb }
  let st2 : KMState :=
    { st1 with action_to_bindings := alEnsure st1.action_to_bindings owner }
  let lst := bindingsOf st2 owner
  if nb ∈ lst then
    Res.ok
      { st2 with action_to_bindings := alInsert st2.action_to_bindings owner (lrm lst nb) } ()
  else
    Res.err st2 PyErr.valueError

/-- The second half of `edit_accel`, after the detach block.  With a
non-empty old binding: pop it from `binding_to_action` (KeyError when
absent), map the new binding to the action, and replace the old binding in
the action's list at its first index (ValueError when absent).  With an
empty old binding: a pure addition.  Both success paths call `save()`. -/
def editPhase2 (name : String) (nb : Binding) (oldParsed : Option Binding)
    (prevOwner : Option String) (st : KMState) : Res (Option String) :=
  match oldParsed with
  | some ob =>
      match alLookup st.binding_to_action ob with
      | none => Res.err st PyErr.keyError
      | some _ =>
          let st1 : KMState :=
            { st with binding_to_action :=
                alInsert (alPop st.binding_to_action ob) nb name }
          let st2 : KMState :=
            { st1 with action_to_bindings := alEnsure st1.action_to_bindings name }
          let lst := bindingsOf st2 name
          match lidx lst ob with
          | none => Res.err st2 PyErr.valueError
          | some i =>
              let st3 : KMState :=
                { st2 with action_to_bindings :=
                    alInsert st2.action_to_bindings name (lset lst i nb) }
              Res.ok { st3 with saveCount := st3.saveCount + 1 } prevOwner
  | none =>
      let st1 : KMState :=
        { st with binding_to_action := alInsert st.binding_to_action nb name }
      let st2 : KMState :=
        { st1 with action_to_bindings := alEnsure st1.action_to_bindings name }
      let st3 : KMState :=
        { st2 with action_to_bindings :=
            alInsert st2.action_to_bindings name (bindingsOf st2 name ++ [nb]) }
      Res.ok { st3 with saveCount := st3.saveCount + 1 } prevOwner

/-- `_KeybindingManager.edit_accel`: assert the name is in the catalog,
parse the new binding, detach it from its previous owner if any, then run
the replace-or-append phase.  Returns the previous owner of the new
binding, or none. -/
def edit_accel (accParse : String → Binding) (name new_binding old_binding : String)
    (st : KMState) : Res (Option String) :=
  if name ∈ BINDING_INFO then
    let nb := accParse new_binding
    let oldParsed : Option Binding :=
      if old_binding ≠ "" then some (accParse old_binding) else none
    match alLookup st.binding_to_action nb with
    | some owner =>
        match detachNb st nb owner with
        | Res.ok st1 _ => editPhase2 name nb oldParsed (some owner) st1
        | Res.err st1 e => Res.err st1 e
    | none => editPhase2 name nb oldParsed none st
  else Res.err st PyErr.assertionError

/-- `_KeybindingManager.clear_accel`: assert the name is in the catalog,
remove the parsed binding from the action's list (`list.remove`,
ValueError when absent), pop it from `binding_to_action` (KeyError when
absent), then `save()`. -/
def clear_accel (accParse : String → Binding) (name binding : String)
    (st : KMState) : Res Unit :=
  if name ∈ BINDING_INFO then
    let ob := accParse binding
    let st1 : KMState :=
      { st with action_to_bindings := alEnsure st.action_to_bindings name }
    let lst := bindingsOf st1 name
    if ob ∈ lst then
      let st2 : KMState :=
        { st1 with action_to_bindings := alInsert st1.action_to_bindings name (lrm lst ob) }
      match alLookup st2.binding_to_action ob with
      | some _ =>
          Res.ok
            { st2 with binding_to_action := alPop st2.binding_to_action ob,
                       saveCount := st2.saveCount + 1 } ()
      | none => Res.err st2 PyErr.keyError
    else Res.err st1 PyErr.valueError
  else Res.err st PyErr.assertionError

/-- Outcome of `execute`.  `invoked cb` means the window's key-press event
was stopped (marked handled) and the callback triple `cb` was applied;
`cbError` is the KeyError raised when the matched action has no registered
callback (raised before the event is stopped, so the event is not marked
handled); `noMatch` means no tier matched, nothing was invoked and the
event propagates. -/
inductive ExecOutcome where
  | invoked (cb : Callback)
  | cbError
  | noMatch
deriving DecidableEq

/-- The tier-2 scan of `execute`: the first stored binding whose key code
equals the event's key code and whose stored modifier mask has a non-zero
bitwise and with the event's modifier mask. -/
def fuzzyFind (kb : Binding) : List (Binding × String) → Option (Binding × String)
  | [] => none
  | (b, a) :: l =>
      if b.1 = kb.1 ∧ b.2 &&& kb.2 ≠ 0 then some (b, a) else fuzzyFind kb l

/-- Look up and apply the callback of a matched action.  The callback
lookup happens before the event is stopped, so a missing callback raises
without marking the event handled. -/
def invokeAction (st : KMState) (action : String) : ExecOutcome :=
  match alLookup st.action_to_callback action with
  | some cb => ExecOutcome.invoked cb
  | none => ExecOutcome.cbError

/-- `_KeybindingManager.execute`: three lookup tiers in order — exact
lookup, fuzzy modifier-subset scan, then bare `(key code, 0)` lookup.
It only reads the dictionaries, so the registry state is untouched. -/
def execute (st : KMState) (kb : Binding) : ExecOutcome :=
  match alLookup st.binding_to_action kb with
  | some action => invokeAction st action
  | none =>
      match fuzzyFind kb st.binding_to_action with
      | some (_, action) => invokeAction st action
      | none =>
          match alLookup st.binding_to_action (kb.1, 0) with
          | some action => invokeAction st action
          | none => ExecOutcome.noMatch

/-- Whether the key-press event was marked handled (stopped). -/
def handled : ExecOutcome → Bool
  | ExecOutcome.invoked _ => true
  | _ => false

/-- `_KeybindingManager.get_bindings_for_action`: no catalog check at all;
a defaultdict read, so an unknown name inserts an empty entry. -/
def get_bindings_for_action (name : String) (st : KMState) :
    KMState × List Binding :=
  let st1 : KMState :=
    { st with action_to_bindings := alEnsure st.action_to_bindings name }
  (st1, bindingsOf st1 name)

/-- The document written by `save()`: every entry of `action_to_bindings`
serialized with gtk.accelerator_name, in insertion order. -/
def saveDoc (accName : Binding → String) (st : KMState) :
    List (String × List String) :=
  st.action_to_bindings.map (fun p => (p.1, p.2.map accName))

/-- The state of a freshly constructed manager before `_initialize`
populates it. -/
def initialState : KMState :=
  { action_to_callback := [], action_to_bindings := [], binding_to_action := [],
    warnings := [], saveCount := 0 }

/-- One step of `_initialize`: a catalog action found in the loaded
document gets its parsed bindings installed in both views; an absent one
gets an empty binding list. -/
def initStep (accParse : String → Binding) (doc : List (String × List String))
    (st : KMState) (action : String) : KMState :=
  match alLookup doc action with
  | some keynames =>
      let bs := keynames.map accParse
      { st with
        action_to_bindings := alInsert st.action_to_bindings action bs,
        binding_to_action :=
          bs.foldl (fun m b => alInsert m b action) st.binding_to_action }
  | none =>
      { st with action_to_bindings := alInsert st.action_to_bindings action [] }

/-- `_KeybindingManager._initialize` applied to an already loaded document
(load failures fall back to the empty document before this loop runs). -/
def initFromDoc (accParse : String → Binding)
    (doc : List (String × List String)) : KMState :=
  BINDING_INFO.foldl (initStep accParse doc) initialState

/-- A registry call made by the preferences UI or a registering module. -/
inductive Op where
  | reg (name : String) (defaults : List String) (cb : Callback)
  | edit (name newB oldB : String)
  | clear (name binding : String)
deriving DecidableEq

/-- Apply one registry call. -/
def applyOp (accParse : String → Binding) (st : KMState) : Op → Res Unit
  | Op.reg n d c => register accParse n d c st
  | Op.edit n nb ob =>
      match edit_accel accParse n nb ob st with
      | Res.ok st2 _ => Res.ok st2 ()
      | Res.err st2 e => Res.err st2 e
  | Op.clear n b => clear_accel accParse n b st

/-- Run a sequence of registry calls; `some` only when every call
succeeded. -/
def runOps (accParse : String → Binding) : List Op → KMState → Option KMState
  | [], st => some st
  | op :: ops, st =>
      match applyOp accParse st op with
      | Res.ok st2 _ => runOps accParse ops st2
      | Res.err _ _ => none

/-- Mutual consistency of the two views: every `binding -> action` entry
has the binding in that action's list, and every binding in any action's
list maps back to that action. -/
def Consistent (st : KMState) : Prop :=
  (∀ b a, alLookup st.binding_to_action b = some a → b ∈ bindingsOf st a) ∧
  (∀ a b, b ∈ bindingsOf st a → alLookup st.binding_to_action b = some a)

/-- Well-formedness: the views agree, no action's binding list has
duplicates, and the `binding_to_action` keys are unique (automatic for a
Python dict, explicit for the association-list model). -/
def WF (st : KMState) : Prop :=
  Consistent st ∧ (∀ a, (bindingsOf st a).Nodup) ∧
    (alKeys st.binding_to_action).Nodup

/-- Executable check implying `Consistent`. -/
def consistentChk (st : KMState) : Bool :=
  st.binding_to_action.all (fun p => decide (p.1 ∈ bindingsOf st p.2)) &&
  st.action_to_bindings.all
    (fun q => q.2.all (fun b => alLookup st.binding_to_action b == some q.1))

/-- Executable check implying `WF`. -/
def wfChk (st : KMState) : Bool :=
  consistentChk st &&
  st.action_to_bindings.all (fun q => decide q.2.Nodup) &&
  decide (alKeys st.binding_to_action).Nodup

/-- A concrete stand-in for gtk.accelerator_parse used on concrete inputs:
"a" parses to key code 97, "x" to 120, anything else to (0, 0). -/
def accP0 : String → Binding :=
  fun s => if s = "a" then (97, 0) else if s = "x" then (120, 0) else (0, 0)

/-- A concrete stand-in for gtk.accelerator_name used on concrete inputs. -/
def accN0 : Binding → String := fun _ => "a"

/-- A concrete callback triple. -/
def cb0 : Callback := ⟨1, [], []⟩

/-- Another concrete callback triple, with argument bags. -/
def cb1 : Callback := ⟨2, [5], [("k", 1)]⟩

/-- A state in which (97, 0) is owned by "zoom out" while "zoom in" has no
bindings yet. -/
def c1st : KMState :=
  { action_to_callback := []
    action_to_bindings := [("zoom out", [(97, 0)]), ("zoom in", [])]
    binding_to_action := [((97, 0), "zoom out")]
    warnings := []
    saveCount := 0 }

/-- A state with one registered action "zoom in" bound to Control-a,
modelled as key code 97 with modifier mask 4. -/
def c2st : KMState :=
  { action_to_callback := [("zoom in", cb0)]
    action_to_bindings := [("zoom in", [(97, 4)])]
    binding_to_action := [((97, 4), "zoom in")]
    warnings := []
    saveCount := 0 }

/-- A state whose two views agree on membership but whose "zoom in" list
holds the binding (97, 0) twice. -/
def c3st : KMState :=
  { action_to_callback := []
    action_to_bindings := [("zoom in", [(97, 0), (97, 0)])]
    binding_to_action := [((97, 0), "zoom in")]
    warnings := []
    saveCount := 0 }

/-- The single edit call run from `c3st`. -/
def c3ops : List Op := [Op.edit "zoom in" "x" "a"]

/-- The state `c3ops` produces from `c3st`: a second copy of (97, 0) is
left in the list while its reverse mapping is gone. -/
def c3stR : KMState :=
  { action_to_callback := []
    action_to_bindings := [("zoom in", [(120, 0), (97, 0)])]
    binding_to_action := [((120, 0), "zoom in")]
    warnings := []
    saveCount := 1 }

/-- A single register call run from the empty state. -/
def c3wops : List Op := [Op.reg "zoom in" ["a"] cb0]

/-- The state `c3wops` produces from `initialState`. -/
def c3wres : KMState :=
  { action_to_callback := [("zoom in", cb0)]
    action_to_bindings := [("zoom in", [(97, 0)])]
    binding_to_action := [((97, 0), "zoom in")]
    warnings := []
    saveCount := 0 }

/-- A freshly initialised state: every catalog action keyed with an empty
binding list. -/
def c4st : KMState :=
  { action_to_callback := []
    action_to_bindings := BINDING_INFO.map (fun a => (a, []))
    binding_to_action := []
    warnings := []
    saveCount := 0 }

/-- A state with "zoom in" bound to the single binding (97, 0). -/
def c6st : KMState :=
  { action_to_callback := []
    action_to_bindings := [("zoom in", [(97, 0)])]
    binding_to_action := [((97, 0), "zoom in")]
    warnings := []
    saveCount := 0 }

/-- A state in which "zoom in" holds both (120, 0) and (97, 0), in that
order. -/
def c7st : KMState :=
  { action_to_callback := []
    action_to_bindings := [("zoom in", [(120, 0), (97, 0)])]
    binding_to_action := [((120, 0), "zoom in"), ((97, 0), "zoom in")]
    warnings := []
    saveCount := 0 }

/-- A state where (120, 0) is owned by "zoom out" and (97, 0) by
"zoom in". -/
def c10st : KMState :=
  { action_to_callback := []
    action_to_bindings := [("zoom out", [(120, 0)]), ("zoom in", [(97, 0)])]
    binding_to_action := [((120, 0), "zoom out"), ((97, 0), "zoom in")]
    warnings := []
    saveCount := 0 }

section AssocLemmas

variable {κ β γ : Type} [DecidableEq κ]

theorem alLookup_insert (l : List (κ × β)) (k k2 : κ) (v : β) :
    alLookup (alInsert l k v) k2 = if k = k2 then some v else alLookup l k2 := by
  induction l with
  | nil => simp [alInsert, alLookup]
  | cons p l ih =>
      obtain ⟨k3, v3⟩ := p
      by_cases h3 : k3 = k
      · subst h3
        simp only [alInsert, if_pos rfl, alLookup]
        by_cases h2 : k3 = k2 <;> simp [h2]
      · simp only [alInsert, if_neg h3, alLookup, ih]
        by_cases h2 : k3 = k2 <;> by_cases h4 : k = k2 <;> simp [h2, h4]
        exact absurd (h4.trans h2.symm) (fun hh => h3 hh.symm)

theorem alLookup_insert_self (l : List (κ × β)) (k : κ) (v : β) :
    alLookup (alInsert l k v) k = some v := by
  simp [alLookup_insert]

theorem alLookup_insert_ne (l : List (κ × β)) (k k2 : κ) (v : β) (h : k2 ≠ k) :
    alLookup (alInsert l k v) k2 = alLookup l k2 := by
  rw [alLookup_insert, if_neg (Ne.symm h)]

theorem alLookup_pop_ne (l : List (κ × β)) (k k2 : κ) (h : k2 ≠ k) :
    alLookup (alPop l k) k2 = alLookup l k2 := by
  have h' : ¬ k = k2 := fun hh => h hh.symm
  induction l with
  | nil => simp [alPop]
  | cons p l ih =>
      obtain ⟨k3, v3⟩ := p
      by_cases h3 : k3 = k
      · subst h3
        simp [alPop, alLookup, h']
      · simp [alPop, alLookup, h3, ih]

theorem mem_alKeys_of_lookup {l : List (κ × β)} {k : κ} {v : β}
    (h : alLookup l k = some v) : k ∈ alKeys l := by
  induction l with
  | nil => simp [alLookup] at h
  | cons p l ih =>
      obtain ⟨k2, v2⟩ := p
      by_cases h2 : k2 = k
      · subst h2
        simp [alKeys]
      · simp only [alLookup, if_neg h2] at h
        simp only [alKeys, List.mem_cons]
        exact Or.inr (ih h)

theorem alLookup_eq_none (l : List (κ × β)) (k : κ) (h : k ∉ alKeys l) :
    alLookup l k = none := by
  induction l with
  | nil => simp [alLookup]
  | cons p l ih =>
      obtain ⟨k2, v2⟩ := p
      simp only [alKeys, List.mem_cons] at h
      push_neg at h
      have h' : ¬ k2 = k := fun hh => h.1 hh.symm
      simp [alLookup, h', ih h.2]

theorem not_mem_alKeys_of_none {l : List (κ × β)} {k : κ}
    (h : alLookup l k = none) : k ∉ alKeys l := by
  induction l with
  | nil => simp [alKeys]
  | cons p l ih =>
      obtain ⟨k2, v2⟩ := p
      by_cases h2 : k2 = k
      · simp [alLookup, h2] at h
      · simp only [alLookup, if_neg h2] at h
        simp only [alKeys, List.mem_cons]
        push_neg
        exact ⟨fun hh => h2 hh.symm, ih h⟩

theorem alLookup_pop_self (l : List (κ × β)) (k : κ)
    (h : (alKeys l).Nodup) : alLookup (alPop l k) k = none := by
  induction l with
  | nil => simp [alPop, alLookup]
  | cons p l ih =>
      obtain ⟨k2, v2⟩ := p
      simp only [alKeys, List.nodup_cons] at h
      by_cases h2 : k2 = k
      · subst h2
        simp only [alPop, if_pos rfl]
        exact alLookup_eq_none l k2 h.1
      · simp only [alPop, if_neg h2, alLookup, if_neg h2]
        exact ih h.2

theorem alKeys_pop_sublist (l : List (κ × β)) (k : κ) :
    (alKeys (alPop l k)).Sublist (alKeys l) := by
  induction l with
  | nil => simp [alPop]
  | cons p l ih =>
      obtain ⟨k2, v2⟩ := p
      by_cases h2 : k2 = k
      · simp only [alPop, if_pos h2, alKeys]
        exact List.sublist_cons_self _ _
      · simp only [alPop, if_neg h2, alKeys]
        exact ih.cons₂ _

theorem alKeys_pop_nodup (l : List (κ × β)) (k : κ)
    (h : (alKeys l).Nodup) : (alKeys (alPop l k)).Nodup :=
  (alKeys_pop_sublist l k).nodup h

theorem mem_alKeys_insert {l : List (κ × β)} {k a : κ} {v : β}
    (h : a ∈ alKeys (alInsert l k v)) : a ∈ alKeys l ∨ a = k := by
  induction l with
  | nil =>
      simp only [alInsert, alKeys, List.mem_cons, List.not_mem_nil, or_false] at h
      exact Or.inr h
  | cons p l ih =>
      obtain ⟨k2, v2⟩ := p
      by_cases h2 : k2 = k
      · subst h2
        simp only [alInsert, if_pos rfl, alKeys, List.mem_cons] at h
        simp only [alKeys, List.mem_cons]
        rcases h with h | h
        · exact Or.inr h
        · exact Or.inl (Or.inr h)
      · simp only [alInsert, if_neg h2, alKeys, List.mem_cons] at h
        simp only [alKeys, List.mem_cons]
        rcases h with h | h
        · exact Or.inl (Or.inl h)
        · rcases ih h with h3 | h3
          · exact Or.inl (Or.inr h3)
          · exact Or.inr h3

theorem alKeys_insert_nodup (l : List (κ × β)) (k : κ) (v : β)
    (h : (alKeys l).Nodup) : (alKeys (alInsert l k v)).Nodup := by
  induction l with
  | nil => simp [alInsert, alKeys]
  | cons p l ih =>
      obtain ⟨k2, v2⟩ := p
      simp only [alKeys, List.nodup_cons] at h
      by_cases h2 : k2 = k
      · subst h2
        simp only [alInsert, if_pos rfl, alKeys, List.nodup_cons]
        exact h
      · simp only [alInsert, if_neg h2, alKeys, List.nodup_cons]
        refine ⟨?_, ih h.2⟩
        intro hmem
        rcases mem_alKeys_insert hmem with h3 | h3
        · exact h.1 h3
        · exact h2 h3

theorem alLookup_mem {l : List (κ × β)} {k : κ} {v : β}
    (h : alLookup l k = some v) : (k, v) ∈ l := by
  induction l with
  | nil => simp [alLookup] at h
  | cons p l ih =>
      obtain ⟨k2, v2⟩ := p
      by_cases h2 : k2 = k
      · subst h2
        simp [alLookup] at h
        subst h
        exact List.mem_cons_self _ _
      · simp only [alLookup, if_neg h2] at h
        exact List.mem_cons_of_mem _ (ih h)

theorem alLookup_append (l1 l2 : List (κ × β)) (k : κ) :
    alLookup (l1 ++ l2) k =
      match alLookup l1 k with
      | some v => some v
      | none => alLookup l2 k := by
  induction l1 with
  | nil => simp [alLookup]
  | cons p l ih =>
      obtain ⟨k2, v2⟩ := p
      by_cases h2 : k2 = k
      · simp [alLookup, h2]
      · simp [alLookup, h2, ih]

theorem alLookup_map (f : β → γ) (l : List (κ × β)) (k : κ) :
    alLookup (l.map (fun p => (p.1, f p.2))) k = (alLookup l k).map f := by
  induction l with
  | nil => simp [alLookup]
  | cons p l ih =>
      obtain ⟨k2, v2⟩ := p
      by_cases h2 : k2 = k
      · simp [alLookup, h2]
      · simp [alLookup, h2, ih]

theorem alPop_of_not_mem (l : List (κ × β)) (k : κ) (h : k ∉ alKeys l) :
    alPop l k = l := by
  induction l with
  | nil => simp [alPop]
  | cons p l ih =>
      obtain ⟨k2, v2⟩ := p
      simp only [alKeys, List.mem_cons] at h
      push_neg at h
      have h' : ¬ k2 = k := fun hh => h.1 hh.symm
      simp [alPop, h', ih h.2]

theorem alEnsure_of_some {l : List (κ × List β)} {k : κ} {v : List β}
    (h : alLookup l k = some v) : alEnsure l k = l := by
  simp [alEnsure, h]

theorem alEnsure_getD (l : List (κ × List β)) (k k2 : κ) :
    (alLookup (alEnsure l k) k2).getD [] = (alLookup l k2).getD [] := by
  unfold alEnsure
  cases h : alLookup l k with
  | some v => rfl
  | none =>
      rw [alLookup_append]
      cases h2 : alLookup l k2 with
      | some v => simp
      | none =>
          by_cases h3 : k = k2
          · subst h3
            simp [alLookup]
          · simp [alLookup, h3]

theorem alEnsure_lookup_ne (l : List (κ × List β)) (k k2 : κ) (h : k2 ≠ k) :
    alLookup (alEnsure l k) k2 = alLookup l k2 := by
  unfold alEnsure
  cases hl : alLookup l k with
  | some v => rfl
  | none =>
      rw [alLookup_append]
      cases h2 : alLookup l k2 with
      | some v => simp
      | none =>
          have h' : ¬ k = k2 := fun hh => h hh.symm
          simp [alLookup, h']

end AssocLemmas

section ListLemmas

set_option linter.unusedSectionVars false

variable {α : Type} [DecidableEq α]

theorem mem_of_mem_lrm {l : List α} {x a : α} (h : a ∈ lrm l x) : a ∈ l := by
  induction l with
  | nil => simp [lrm] at h
  | cons y l ih =>
      by_cases h2 : y = x
      · simp only [lrm, if_pos h2] at h
        exact List.mem_cons_of_mem _ h
      · simp only [lrm, if_neg h2] at h
        rcases List.mem_cons.mp h with h3 | h3
        · exact h3 ▸ List.mem_cons_self _ _
        · exact List.mem_cons_of_mem _ (ih h3)

theorem mem_lrm_of_ne {l : List α} {x a : α} (h : a ∈ l) (hne : a ≠ x) :
    a ∈ lrm l x := by
  induction l with
  | nil => simp at h
  | cons y l ih =>
      rcases List.mem_cons.mp h with h3 | h3
      · subst h3
        by_cases h2 : a = x
        · exact absurd h2 hne
        · simp only [lrm, if_neg h2]
          exact List.mem_cons_self _ _
      · by_cases h2 : y = x
        · simpa [lrm, h2] using h3
        · simp only [lrm, if_neg h2]
          exact List.mem_cons_of_mem _ (ih h3)

theorem lrm_sublist (l : List α) (x : α) : (lrm l x).Sublist l := by
  induction l with
  | nil => simp [lrm]
  | cons y l ih =>
      by_cases h2 : y = x
      · simp only [lrm, if_pos h2]
        exact List.sublist_cons_self _ _
      · simp only [lrm, if_neg h2]
        exact ih.cons₂ _

theorem lrm_nodup {l : List α} (x : α) (h : l.Nodup) : (lrm l x).Nodup :=
  (lrm_sublist l x).nodup h

theorem not_mem_lrm_self {l : List α} {x : α} (h : l.Nodup) : x ∉ lrm l x := by
  induction l with
  | nil => simp [lrm]
  | cons y l ih =>
      simp only [List.nodup_cons] at h
      by_cases h2 : y = x
      · subst h2
        simpa [lrm] using h.1
      · simp only [lrm, if_neg h2]
        intro h3
        rcases List.mem_cons.mp h3 with h4 | h4
        · exact h2 h4.symm
        · exact ih h.2 h4

theorem mem_lrm_iff {l : List α} {x a : α} (h : l.Nodup) :
    a ∈ lrm l x ↔ a ∈ l ∧ a ≠ x := by
  constructor
  · intro h2
    refine ⟨mem_of_mem_lrm h2, ?_⟩
    intro h3
    subst h3
    exact not_mem_lrm_self h h2
  · intro h2
    exact mem_lrm_of_ne h2.1 h2.2

theorem lidx_mem {l : List α} {x : α} {i : Nat} (h : lidx l x = some i) :
    x ∈ l := by
  induction l generalizing i with
  | nil => simp [lidx] at h
  | cons y l ih =>
      by_cases h2 : y = x
      · subst h2
        exact List.mem_cons_self _ _
      · simp only [lidx, if_neg h2] at h
        cases h3 : lidx l x with
        | none => simp [h3] at h
        | some j => exact List.mem_cons_of_mem _ (ih h3)

theorem lidx_isSome_of_mem {l : List α} {x : α} (h : x ∈ l) :
    (lidx l x).isSome := by
  induction l with
  | nil => simp at h
  | cons y l ih =>
      by_cases h2 : y = x
      · simp [lidx, h2]
      · simp only [lidx, if_neg h2]
        rcases List.mem_cons.mp h with h3 | h3
        · exact absurd h3.symm h2
        · cases h4 : lidx l x with
          | none =>
              rw [h4] at ih
              simp at ih
              exact absurd h3 (by simpa using ih)
          | some j => simp

theorem lidx_lt_length {l : List α} {x : α} {i : Nat} (h : lidx l x = some i) :
    i < l.length := by
  induction l generalizing i with
  | nil => simp [lidx] at h
  | cons y l ih =>
      by_cases h2 : y = x
      · simp only [lidx, if_pos h2, Option.some.injEq] at h
        subst h
        simp
      · simp only [lidx, if_neg h2] at h
        cases h3 : lidx l x with
        | none => simp [h3] at h
        | some j =>
            simp only [h3, Option.map_some] at h
            cases h
            simpa [Nat.succ_lt_succ_iff] using ih h3

theorem mem_lset_elim {l : List α} {i : Nat} {v a : α} (h : a ∈ lset l i v) :
    a = v ∨ a ∈ l := by
  induction l generalizing i with
  | nil => simp [lset] at h
  | cons y l ih =>
      cases i with
      | zero =>
          simp only [lset] at h
          rcases List.mem_cons.mp h with h2 | h2
          · exact Or.inl h2
          · exact Or.inr (List.mem_cons_of_mem _ h2)
      | succ j =>
          simp only [lset] at h
          rcases List.mem_cons.mp h with h2 | h2
          · exact Or.inr (h2 ▸ List.mem_cons_self _ _)
          · rcases ih h2 with h3 | h3
            · exact Or.inl h3
            · exact Or.inr (List.mem_cons_of_mem _ h3)

theorem lset_mem_self {l : List α} {i : Nat} {v : α} (h : i < l.length) :
    v ∈ lset l i v := by
  induction l generalizing i with
  | nil => simp at h
  | cons y l ih =>
      cases i with
      | zero =>
          simp only [lset]
          exact List.mem_cons_self _ _
      | succ j =>
          simp only [lset]
          exact List.mem_cons_of_mem _ (ih (by simpa using h))

theorem mem_lset_of_ne {l : List α} {x a v : α} {i : Nat}
    (hidx : lidx l x = some i) (ha : a ∈ l) (hne : a ≠ x) :
    a ∈ lset l i v := by
  induction l generalizing i with
  | nil => simp at ha
  | cons y l ih =>
      by_cases h2 : y = x
      · simp only [lidx, if_pos h2, Option.some.injEq] at hidx
        subst hidx
        simp only [lset]
        rcases List.mem_cons.mp ha with h3 | h3
        · exact absurd (h3.trans h2) hne
        · exact List.mem_cons_of_mem _ h3
      · simp only [lidx, if_neg h2] at hidx
        cases h3 : lidx l x with
        | none => simp [h3] at hidx
        | some j =>
            simp only [h3, Option.map_some] at hidx
            cases hidx
            simp only [lset]
            rcases List.mem_cons.mp ha with h4 | h4
            · exact h4 ▸ List.mem_cons_self _ _
            · exact List.mem_cons_of_mem _ (ih h3 h4)

theorem not_mem_lset {l : List α} {x v : α} {i : Nat} (h : l.Nodup)
    (hidx : lidx l x = some i) (hxv : x ≠ v) : x ∉ lset l i v := by
  induction l generalizing i with
  | nil => simp [lidx] at hidx
  | cons y l ih =>
      simp only [List.nodup_cons] at h
      by_cases h2 : y = x
      · simp only [lidx, if_pos h2, Option.some.injEq] at hidx
        subst hidx
        subst h2
        simp only [lset]
        intro h3
        rcases List.mem_cons.mp h3 with h4 | h4
        · exact hxv h4
        · exact h.1 h4
      · simp only [lidx, if_neg h2] at hidx
        cases h3 : lidx l x with
        | none => simp [h3] at hidx
        | some j =>
            simp only [h3, Option.map_some] at hidx
            cases hidx
            simp only [lset]
            intro h4
            rcases List.mem_cons.mp h4 with h5 | h5
            · exact h2 h5.symm
            · exact ih h.2 h3 h5

theorem lset_nodup {l : List α} {v : α} (i : Nat) (h : l.Nodup) (hv : v ∉ l) :
    (lset l i v).Nodup := by
  induction l generalizing i with
  | nil => simp [lset]
  | cons y l ih =>
      simp only [List.nodup_cons] at h
      simp only [List.mem_cons] at hv
      push_neg at hv
      cases i with
      | zero =>
          simp only [lset, List.nodup_cons]
          exact ⟨hv.2, h.2⟩
      | succ j =>
          simp only [lset, List.nodup_cons]
          refine ⟨?_, ih j h.2 hv.2⟩
          intro h3
          rcases mem_lset_elim h3 with h4 | h4
          · exact hv.1 h4.symm
          · exact h.1 h4

end ListLemmas

section StateLemmas

theorem bindingsOf_isSome {st : KMState} {a : String}
    (h : bindingsOf st a ≠ []) :
    ∃ l, alLookup st.action_to_bindings a = some l ∧ bindingsOf st a = l := by
  unfold bindingsOf at h ⊢
  cases h2 : alLookup st.action_to_bindings a with
  | none => rw [h2] at h; simp at h
  | some l => exact ⟨l, rfl, by simp⟩

theorem bindingsOf_congr {st2 st : KMState}
    (h : st2.action_to_bindings = st.action_to_bindings) (a : String) :
    bindingsOf st2 a = bindingsOf st a := by
  unfold bindingsOf
  rw [h]

theorem consistentChk_sound {st : KMState} (h : consistentChk st = true) :
    Consistent st := by
  unfold consistentChk at h
  rw [Bool.and_eq_true] at h
  obtain ⟨h1, h2⟩ := h
  rw [List.all_eq_true] at h1 h2
  constructor
  · intro b a hba
    have hm := alLookup_mem hba
    have h3 := h1 _ hm
    simpa using h3
  · intro a b hb
    unfold bindingsOf at hb
    cases hl : alLookup st.action_to_bindings a with
    | none => rw [hl] at hb; simp at hb
    | some lst =>
        rw [hl] at hb
        simp only [Option.getD_some] at hb
        have hm := alLookup_mem hl
        have h3 := h2 _ hm
        rw [List.all_eq_true] at h3
        have h4 := h3 _ hb
        simpa using h4

theorem wfChk_sound {st : KMState} (h : wfChk st = true) : WF st := by
  unfold wfChk at h
  rw [Bool.and_eq_true, Bool.and_eq_true] at h
  obtain ⟨⟨h1, h2⟩, h3⟩ := h
  refine ⟨consistentChk_sound h1, ?_, by simpa using h3⟩
  intro a
  unfold bindingsOf
  cases hl : alLookup st.action_to_bindings a with
  | none => simp
  | some lst =>
      have hm := alLookup_mem hl
      rw [List.all_eq_true] at h2
      have h4 := h2 _ hm
      simpa using h4

end StateLemmas

section ViewLemmas

theorem alInsert_append_key {κ β : Type} [DecidableEq κ]
    (l : List (κ × β)) (k : κ) (v w : β) (hl : alLookup l k = none) :
    alInsert (l ++ [(k, w)]) k v = alInsert l k v := by
  induction l with
  | nil => simp [alInsert]
  | cons p l ih =>
      obtain ⟨k2, v2⟩ := p
      by_cases h2 : k2 = k
      · simp [alLookup, h2] at hl
      · simp only [alLookup, if_neg h2] at hl
        rw [List.cons_append]
        simp only [alInsert, if_neg h2]
        rw [ih hl]

theorem alInsert_ensure {κ β : Type} [DecidableEq κ]
    (l : List (κ × List β)) (k : κ) (v : List β) :
    alInsert (alEnsure l k) k v = alInsert l k v := by
  unfold alEnsure
  cases hl : alLookup l k with
  | some w => rfl
  | none => exact alInsert_append_key l k v [] hl

theorem WF_of_fields {st st2 : KMState}
    (h2a : st2.action_to_bindings = st.action_to_bindings)
    (hb : st2.binding_to_action = st.binding_to_action)
    (h : WF st) : WF st2 := by
  obtain ⟨⟨h1, h2⟩, h3, h4⟩ := h
  have hbo : ∀ a, bindingsOf st2 a = bindingsOf st a := by
    intro a
    unfold bindingsOf
    rw [h2a]
  refine ⟨⟨?_, ?_⟩, ?_, ?_⟩
  · intro b a hba
    rw [hbo]
    rw [hb] at hba
    exact h1 b a hba
  · intro a b hba
    rw [hbo] at hba
    rw [hb]
    exact h2 a b hba
  · intro a
    rw [hbo]
    exact h3 a
  · rw [hb]
    exact h4

/-- Well-formedness expressed directly on the two view lists, to ease
reasoning about the states the operations construct. -/
def WF2 (a2b : List (String × List Binding)) (b2a : List (Binding × String)) :
    Prop :=
  (∀ b a, alLookup b2a b = some a → b ∈ (alLookup a2b a).getD []) ∧
  (∀ a b, b ∈ (alLookup a2b a).getD [] → alLookup b2a b = some a) ∧
  (∀ a, ((alLookup a2b a).getD [] : List Binding).Nodup) ∧
  (alKeys b2a).Nodup

theorem WF_iff_WF2 (st : KMState) :
    WF st ↔ WF2 st.action_to_bindings st.binding_to_action := by
  constructor
  · intro ⟨⟨h1, h2⟩, h3, h4⟩
    exact ⟨h1, h2, h3, h4⟩
  · intro ⟨h1, h2, h3, h4⟩
    exact ⟨⟨h1, h2⟩, h3, h4⟩

theorem WF2_install {a2b : List (String × List Binding)}
    {b2a : List (Binding × String)} {name : String} {kc : Binding}
    (h : WF2 a2b b2a) (hl : alLookup b2a kc = none) :
    WF2 (alInsert a2b name ((alLookup a2b name).getD [] ++ [kc]))
        (alInsert b2a kc name) := by
  obtain ⟨hd1, hd2, hnd, hks⟩ := h
  set L := (alLookup a2b name).getD [] with hLdef
  have hkcL : kc ∉ L := by
    intro hmem
    rw [hd2 name kc hmem] at hl
    cases hl
  have hboself : (alLookup (alInsert a2b name (L ++ [kc])) name).getD [] = L ++ [kc] := by
    rw [alLookup_insert_self]
    rfl
  have hbone : ∀ a, a ≠ name →
      (alLookup (alInsert a2b name (L ++ [kc])) a).getD []
        = (alLookup a2b a).getD [] := by
    intro a ha
    rw [alLookup_insert_ne _ _ _ _ ha]
  refine ⟨?_, ?_, ?_, ?_⟩
  · intro b a hba
    rw [alLookup_insert] at hba
    by_cases hb : kc = b
    · subst hb
      rw [if_pos rfl] at hba
      cases hba
      rw [hboself]
      exact List.mem_append_right _ (List.mem_cons_self _ _)
    · rw [if_neg hb] at hba
      have hmem := hd1 b a hba
      by_cases ha : a = name
      · subst ha
        rw [hboself]
        exact List.mem_append_left _ hmem
      · rw [hbone a ha]
        exact hmem
  · intro a b hba
    rw [alLookup_insert]
    by_cases ha : a = name
    · subst ha
      rw [hboself] at hba
      rcases List.mem_append.mp hba with hb1 | hb1
      · have h5 := hd2 a b hb1
        have hbkc : ¬ kc = b := by
          intro hh
          rw [← hh] at h5
          rw [h5] at hl
          cases hl
        rw [if_neg hbkc]
        exact h5
      · simp only [List.mem_singleton] at hb1
        subst hb1
        rw [if_pos rfl]
    · rw [hbone a ha] at hba
      have h5 := hd2 a b hba
      have hbkc : ¬ kc = b := by
        intro hh
        rw [← hh] at h5
        rw [h5] at hl
        cases hl
      rw [if_neg hbkc]
      exact h5
  · intro a
    by_cases ha : a = name
    · subst ha
      rw [hboself]
      rw [List.nodup_append]
      refine ⟨hnd a, List.nodup_singleton _, ?_⟩
      intro x hx hx2
      simp only [List.mem_singleton] at hx2
      subst hx2
      exact hkcL hx
    · rw [hbone a ha]
      exact hnd a
  · exact alKeys_insert_nodup _ _ _ hks

theorem WF2_detach {a2b : List (String × List Binding)}
    {b2a : List (Binding × String)} {owner : String} {nb : Binding}
    (h : WF2 a2b b2a) (hl : alLookup b2a nb = some owner) :
    WF2 (alInsert a2b owner (lrm ((alLookup a2b owner).getD []) nb))
        (alPop b2a nb) := by
  obtain ⟨hd1, hd2, hnd, hks⟩ := h
  set L := (alLookup a2b owner).getD [] with hLdef
  have hboself :
      (alLookup (alInsert a2b owner (lrm L nb)) owner).getD [] = lrm L nb := by
    rw [alLookup_insert_self]
    rfl
  have hbone : ∀ a, a ≠ owner →
      (alLookup (alInsert a2b owner (lrm L nb)) a).getD []
        = (alLookup a2b a).getD [] := by
    intro a ha
    rw [alLookup_insert_ne _ _ _ _ ha]
  refine ⟨?_, ?_, ?_, ?_⟩
  · intro b a hba
    by_cases hb : b = nb
    · subst hb
      rw [alLookup_pop_self _ _ hks] at hba
      cases hba
    · rw [alLookup_pop_ne _ _ _ hb] at hba
      have hmem := hd1 b a hba
      by_cases ha : a = owner
      · subst ha
        rw [hboself]
        exact mem_lrm_of_ne hmem hb
      · rw [hbone a ha]
        exact hmem
  · intro a b hba
    by_cases ha : a = owner
    · subst ha
      rw [hboself] at hba
      have hb2 := (mem_lrm_iff (hnd a)).mp hba
      have h5 := hd2 a b hb2.1
      rw [alLookup_pop_ne _ _ _ hb2.2]
      exact h5
    · rw [hbone a ha] at hba
      have h5 := hd2 a b hba
      have hbnb : b ≠ nb := by
        intro hh
        rw [hh] at h5
        rw [h5] at hl
        cases hl
        exact ha rfl
      rw [alLookup_pop_ne _ _ _ hbnb]
      exact h5
  · intro a
    by_cases ha : a = owner
    · subst ha
      rw [hboself]
      exact lrm_nodup _ (hnd a)
    · rw [hbone a ha]
      exact hnd a
  · exact alKeys_pop_nodup _ _ hks

theorem WF2_replace {a2b : List (String × List Binding)}
    {b2a : List (Binding × String)} {name : String} {nb ob : Binding} {i : Nat}
    (h : WF2 a2b b2a) (hnb : alLookup b2a nb = none)
    (hidx : lidx ((alLookup a2b name).getD []) ob = some i) :
    WF2 (alInsert a2b name (lset ((alLookup a2b name).getD []) i nb))
        (alInsert (alPop b2a ob) nb name) := by
  obtain ⟨hd1, hd2, hnd, hks⟩ := h
  set L := (alLookup a2b name).getD [] with hLdef
  have hobL : ob ∈ L := lidx_mem hidx
  have hob : alLookup b2a ob = some name := hd2 name ob hobL
  have hnbob : nb ≠ ob := by
    intro hh
    rw [hh, hob] at hnb
    cases hnb
  have hnbL : nb ∉ L := by
    intro hmem
    rw [hd2 name nb hmem] at hnb
    cases hnb
  have hboself :
      (alLookup (alInsert a2b name (lset L i nb)) name).getD [] = lset L i nb := by
    rw [alLookup_insert_self]
    rfl
  have hbone : ∀ a, a ≠ name →
      (alLookup (alInsert a2b name (lset L i nb)) a).getD []
        = (alLookup a2b a).getD [] := by
    intro a ha
    rw [alLookup_insert_ne _ _ _ _ ha]
  have hobset : ob ∉ lset L i nb :=
    not_mem_lset (hnd name) hidx (fun hh => hnbob hh.symm)
  refine ⟨?_, ?_, ?_, ?_⟩
  · intro b a hba
    rw [alLookup_insert] at hba
    by_cases hb : nb = b
    · subst hb
      rw [if_pos rfl] at hba
      cases hba
      rw [hboself]
      exact lset_mem_self (lidx_lt_length hidx)
    · rw [if_neg hb] at hba
      by_cases hbob : b = ob
      · subst hbob
        rw [alLookup_pop_self _ _ hks] at hba
        cases hba
      · rw [alLookup_pop_ne _ _ _ hbob] at hba
        have hmem := hd1 b a hba
        by_cases ha : a = name
        · subst ha
          rw [hboself]
          exact mem_lset_of_ne hidx hmem hbob
        · rw [hbone a ha]
          exact hmem
  · intro a b hba
    rw [alLookup_insert]
    by_cases ha : a = name
    · subst ha
      rw [hboself] at hba
      by_cases hb : nb = b
      · rw [if_pos hb]
      · rw [if_neg hb]
        have hbL : b ∈ L := by
          rcases mem_lset_elim hba with h5 | h5
          · exact absurd h5.symm hb
          · exact h5
        have hbob : b ≠ ob := by
          intro hh
          subst hh
          exact hobset hba
        rw [alLookup_pop_ne _ _ _ hbob]
        exact hd2 a b hbL
    · rw [hbone a ha] at hba
      have h5 := hd2 a b hba
      have hbob : b ≠ ob := by
        intro hh
        rw [hh, hob] at h5
        cases h5
        exact ha rfl
      have hb : ¬ nb = b := by
        intro hh
        rw [← hh] at h5
        rw [h5] at hnb
        cases hnb
      rw [if_neg hb, alLookup_pop_ne _ _ _ hbob]
      exact h5
  · intro a
    by_cases ha : a = name
    · subst ha
      rw [hboself]
      exact lset_nodup i (hnd a) hnbL
    · rw [hbone a ha]
      exact hnd a
  · exact alKeys_insert_nodup _ _ _ (alKeys_pop_nodup _ _ hks)

end ViewLemmas

section OperationWF

theorem regStep_of_eq {st : KMState} {name : String} {kc : Binding}
    (hl : alLookup st.binding_to_action kc = some name) :
    regStep name st kc = st := by
  simp [regStep, hl]

theorem regStep_warn {st : KMState} {name owner : String} {kc : Binding}
    (hl : alLookup st.binding_to_action kc = some owner) (hne : owner ≠ name) :
    regStep name st kc
      = { st with warnings := st.warnings ++ [(kc, name, owner)] } := by
  simp [regStep, hl, hne]

theorem regStep_of_none {st : KMState} {name : String} {kc : Binding}
    (hl : alLookup st.binding_to_action kc = none) :
    regStep name st kc
      = { st with
          binding_to_action := alInsert st.binding_to_action kc name,
          action_to_bindings :=
            alInsert st.action_to_bindings name (bindingsOf st name ++ [kc]) } := by
  simp [regStep, hl]

theorem WF_of_views {st st2 : KMState}
    (hbo : ∀ a, bindingsOf st2 a = bindingsOf st a)
    (hb : st2.binding_to_action = st.binding_to_action)
    (h : WF st) : WF st2 := by
  obtain ⟨⟨h1, h2⟩, h3, h4⟩ := h
  refine ⟨⟨?_, ?_⟩, ?_, ?_⟩
  · intro b a hba
    rw [hbo]
    rw [hb] at hba
    exact h1 b a hba
  · intro a b hba
    rw [hbo] at hba
    rw [hb]
    exact h2 a b hba
  · intro a
    rw [hbo]
    exact h3 a
  · rw [hb]
    exact h4

theorem regStep_WF {st : KMState} {name : String} {kc : Binding}
    (h : WF st) : WF (regStep name st kc) := by
  cases hl : alLookup st.binding_to_action kc with
  | some owner =>
      by_cases h2 : owner = name
      · rw [h2] at hl
        rw [regStep_of_eq hl]
        exact h
      · rw [regStep_warn hl h2]
        exact WF_of_fields rfl rfl h
  | none =>
      rw [regStep_of_none hl]
      rw [WF_iff_WF2]
      exact WF2_install ((WF_iff_WF2 st).mp h) hl

theorem foldl_regStep_WF {name : String} (l : List Binding) {st : KMState}
    (h : WF st) : WF (l.foldl (regStep name) st) := by
  induction l generalizing st with
  | nil => exact h
  | cons kc l ih => exact ih (regStep_WF h)

theorem regLoopA_WF {name : String} (fuel i : Nat) {st : KMState}
    (h : WF st) : WF (regLoopA name fuel i st) := by
  induction fuel generalizing i st with
  | zero => exact h
  | succ fuel ih =>
      rw [regLoopA]
      split
      · exact ih _ (regStep_WF h)
      · exact h

theorem WF_ensure {st : KMState} (name : String) (h : WF st) :
    WF { st with action_to_bindings := alEnsure st.action_to_bindings name } :=
  WF_of_views (fun a => alEnsure_getD st.action_to_bindings name a) rfl h

theorem registerViews_WF {accParse : String → Binding} {name : String}
    {bindings : List String} {st : KMState} (h : WF st) :
    WF (registerViews accParse name bindings st) := by
  unfold registerViews
  dsimp only
  split
  · exact foldl_regStep_WF _ (WF_ensure name h)
  · exact regLoopA_WF _ _ (WF_ensure name h)

theorem register_ok {accParse : String → Binding} {name : String}
    {bindings : List String} {cb : Callback} {st : KMState}
    (hn : name ∈ BINDING_INFO) :
    register accParse name bindings cb st =
      Res.ok
        { registerViews accParse name bindings st with
          action_to_callback :=
            alInsert (registerViews accParse name bindings st).action_to_callback
              name cb } () := by
  simp [register, hn]

theorem register_WF {accParse : String → Binding} {name : String}
    {bindings : List String} {cb : Callback} {st st2 : KMState} {v : Unit}
    (h : WF st) (hreg : register accParse name bindings cb st = Res.ok st2 v) :
    WF st2 := by
  unfold register at hreg
  by_cases hn : name ∈ BINDING_INFO
  · rw [if_pos hn] at hreg
    injection hreg with h1 h2
    subst h1
    exact WF_of_fields rfl rfl (registerViews_WF h)
  · rw [if_neg hn] at hreg
    cases hreg

end OperationWF

section EditClearLemmas

theorem bindingsOf_ensure (st : KMState) (k a : String) :
    bindingsOf { st with action_to_bindings := alEnsure st.action_to_bindings k } a
      = bindingsOf st a :=
  alEnsure_getD st.action_to_bindings k a

theorem detachNb_ok {st : KMState} {nb : Binding} {owner : String}
    (hwf : WF st) (hl : alLookup st.binding_to_action nb = some owner) :
    detachNb st nb owner =
      Res.ok { st with
        binding_to_action := alPop st.binding_to_action nb,
        action_to_bindings :=
          alInsert st.action_to_bindings owner (lrm (bindingsOf st owner) nb) } () := by
  have hmem : nb ∈ bindingsOf st owner := hwf.1.1 nb owner hl
  have hnonnil : bindingsOf st owner ≠ [] := by
    intro hh
    rw [hh] at hmem
    exact List.not_mem_nil _ hmem
  obtain ⟨L, hL, hLe⟩ := bindingsOf_isSome hnonnil
  have hmemL : nb ∈ L := hLe ▸ hmem
  simp [detachNb, bindingsOf, alEnsure_of_some hL, hL, hmemL]

theorem editPhase2_append_ok {st : KMState} {name : String} {nb : Binding}
    {prev : Option String} :
    editPhase2 name nb none prev st =
      Res.ok { st with
        binding_to_action := alInsert st.binding_to_action nb name,
        action_to_bindings :=
          alInsert st.action_to_bindings name (bindingsOf st name ++ [nb]),
        saveCount := st.saveCount + 1 } prev := by
  simp [editPhase2, alInsert_ensure, alEnsure_getD, bindingsOf]

theorem editPhase2_keyError {st : KMState} {name : String} {nb ob : Binding}
    {prev : Option String} (hob : alLookup st.binding_to_action ob = none) :
    editPhase2 name nb (some ob) prev st = Res.err st PyErr.keyError := by
  simp [editPhase2, hob]

theorem editPhase2_replace_ok {st : KMState} {name : String} {nb ob : Binding}
    {prev : Option String} {i : Nat}
    (hwf : WF st) (hidx : lidx (bindingsOf st name) ob = some i) :
    editPhase2 name nb (some ob) prev st =
      Res.ok { st with
        binding_to_action := alInsert (alPop st.binding_to_action ob) nb name,
        action_to_bindings :=
          alInsert st.action_to_bindings name (lset (bindingsOf st name) i nb),
        saveCount := st.saveCount + 1 } prev := by
  have hobmem : ob ∈ bindingsOf st name := lidx_mem hidx
  have hob : alLookup st.binding_to_action ob = some name := hwf.1.2 name ob hobmem
  have hnonnil : bindingsOf st name ≠ [] := by
    intro hh
    rw [hh] at hobmem
    exact List.not_mem_nil _ hobmem
  obtain ⟨L, hL, hLe⟩ := bindingsOf_isSome hnonnil
  have hidxL : lidx L ob = some i := hLe ▸ hidx
  simp [editPhase2, hob, alEnsure_of_some hL, bindingsOf, hL, hidxL]

theorem editPhase2_valueError {st : KMState} {name : String} {nb ob : Binding}
    {prev : Option String} {x : String}
    (hob : alLookup st.binding_to_action ob = some x)
    (hid : lidx (bindingsOf st name) ob = none) :
    editPhase2 name nb (some ob) prev st =
      Res.err { st with
        binding_to_action := alInsert (alPop st.binding_to_action ob) nb name,
        action_to_bindings := alEnsure st.action_to_bindings name }
        PyErr.valueError := by
  simp [editPhase2, hob, bindingsOf, alEnsure_getD]
  cases hid2 : lidx ((alLookup st.action_to_bindings name).getD []) ob with
  | none => simp
  | some i =>
      rw [show bindingsOf st name = (alLookup st.action_to_bindings name).getD []
        from rfl] at hid
      rw [hid] at hid2
      cases hid2

theorem edit_accel_invalid {accParse : String → Binding}
    {name newB oldB : String} {st : KMState} (hn : name ∉ BINDING_INFO) :
    edit_accel accParse name newB oldB st = Res.err st PyErr.assertionError := by
  simp [edit_accel, hn]

theorem edit_accel_none {accParse : String → Binding}
    {name newB oldB : String} {st : KMState} (hn : name ∈ BINDING_INFO)
    (hl : alLookup st.binding_to_action (accParse newB) = none) :
    edit_accel accParse name newB oldB st =
      editPhase2 name (accParse newB)
        (if oldB ≠ "" then some (accParse oldB) else none) none st := by
  simp [edit_accel, hn, hl]

theorem edit_accel_some {accParse : String → Binding}
    {name newB oldB owner : String} {st : KMState} (hn : name ∈ BINDING_INFO)
    (hwf : WF st)
    (hl : alLookup st.binding_to_action (accParse newB) = some owner) :
    edit_accel accParse name newB oldB st =
      editPhase2 name (accParse newB)
        (if oldB ≠ "" then some (accParse oldB) else none) (some owner)
        { st with
          binding_to_action := alPop st.binding_to_action (accParse newB),
          action_to_bindings :=
            alInsert st.action_to_bindings owner
              (lrm (bindingsOf st owner) (accParse newB)) } := by
  simp [edit_accel, hn, hl, detachNb_ok hwf hl]

theorem editPhase2_WF {st st2 : KMState} {name : String} {nb : Binding}
    {oldp : Option Binding} {prev r : Option String}
    (hwf : WF st) (hnb : alLookup st.binding_to_action nb = none)
    (h : editPhase2 name nb oldp prev st = Res.ok st2 r) : WF st2 := by
  cases oldp with
  | none =>
      rw [editPhase2_append_ok] at h
      injection h with h1 h2
      subst h1
      exact (WF_iff_WF2 _).mpr (WF2_install ((WF_iff_WF2 st).mp hwf) hnb)
  | some ob =>
      cases hob : alLookup st.binding_to_action ob with
      | none =>
          rw [editPhase2_keyError hob] at h
          cases h
      | some x =>
          cases hid : lidx (bindingsOf st name) ob with
          | none =>
              rw [editPhase2_valueError hob hid] at h
              cases h
          | some i =>
              rw [editPhase2_replace_ok hwf hid] at h
              injection h with h1 h2
              subst h1
              exact (WF_iff_WF2 _).mpr (WF2_replace ((WF_iff_WF2 st).mp hwf) hnb hid)

theorem edit_WF {accParse : String → Binding} {name newB oldB : String}
    {st st2 : KMState} {r : Option String}
    (hwf : WF st) (h : edit_accel accParse name newB oldB st = Res.ok st2 r) :
    WF st2 := by
  by_cases hn : name ∈ BINDING_INFO
  · cases hl : alLookup st.binding_to_action (accParse newB) with
    | some owner =>
        rw [edit_accel_some hn hwf hl] at h
        have hwfD : WF { st with
            binding_to_action := alPop st.binding_to_action (accParse newB),
            action_to_bindings :=
              alInsert st.action_to_bindings owner
                (lrm (bindingsOf st owner) (accParse newB)) } :=
          (WF_iff_WF2 _).mpr (WF2_detach ((WF_iff_WF2 st).mp hwf) hl)
        have hnbD : alLookup
            ({ st with
              binding_to_action := alPop st.binding_to_action (accParse newB),
              action_to_bindings :=
                alInsert st.action_to_bindings owner
                  (lrm (bindingsOf st owner) (accParse newB)) }
              : KMState).binding_to_action (accParse newB) = none :=
          alLookup_pop_self _ _ hwf.2.2
        exact editPhase2_WF hwfD hnbD h
    | none =>
        rw [edit_accel_none hn hl] at h
        exact editPhase2_WF hwf hl h
  · rw [edit_accel_invalid hn] at h
    cases h

theorem clear_accel_invalid {accParse : String → Binding}
    {name binding : String} {st : KMState} (hn : name ∉ BINDING_INFO) :
    clear_accel accParse name binding st = Res.err st PyErr.assertionError := by
  simp [clear_accel, hn]

theorem clear_accel_ok {accParse : String → Binding} {name binding : String}
    {st : KMState} (hn : name ∈ BINDING_INFO) (hwf : WF st)
    (hmem : accParse binding ∈ bindingsOf st name) :
    clear_accel accParse name binding st =
      Res.ok { st with
        binding_to_action := alPop st.binding_to_action (accParse binding),
        action_to_bindings :=
          alInsert st.action_to_bindings name
            (lrm (bindingsOf st name) (accParse binding)),
        saveCount := st.saveCount + 1 } () := by
  have hob : alLookup st.binding_to_action (accParse binding) = some name :=
    hwf.1.2 name _ hmem
  have hnonnil : bindingsOf st name ≠ [] := by
    intro hh
    rw [hh] at hmem
    exact List.not_mem_nil _ hmem
  obtain ⟨L, hL, hLe⟩ := bindingsOf_isSome hnonnil
  have hmemL : accParse binding ∈ L := hLe ▸ hmem
  simp [clear_accel, hn, bindingsOf, alEnsure_of_some hL, hL, hmemL, hob]

theorem clear_accel_notmem {accParse : String → Binding} {name binding : String}
    {st : KMState} {L : List Binding} (hn : name ∈ BINDING_INFO)
    (hkey : alLookup st.action_to_bindings name = some L)
    (hmem : accParse binding ∉ bindingsOf st name) :
    clear_accel accParse name binding st = Res.err st PyErr.valueError := by
  have hmemL : accParse binding ∉ L := by
    intro hh
    apply hmem
    unfold bindingsOf
    rw [hkey]
    exact hh
  simp [clear_accel, hn, bindingsOf, alEnsure_of_some hkey, hkey, hmemL]

theorem clear_accel_nokey {accParse : String → Binding} {name binding : String}
    {st : KMState} (hn : name ∈ BINDING_INFO)
    (hkey : alLookup st.action_to_bindings name = none) :
    clear_accel accParse name binding st =
      Res.err { st with
        action_to_bindings := st.action_to_bindings ++ [(name, [])] }
        PyErr.valueError := by
  simp [clear_accel, hn, bindingsOf, alEnsure, hkey, alLookup_append, alLookup]

theorem clear_WF {accParse : String → Binding} {name binding : String}
    {st st2 : KMState} {v : Unit}
    (hwf : WF st) (h : clear_accel accParse name binding st = Res.ok st2 v) :
    WF st2 := by
  by_cases hn : name ∈ BINDING_INFO
  · by_cases hmem : accParse binding ∈ bindingsOf st name
    · rw [clear_accel_ok hn hwf hmem] at h
      injection h with h1 h2
      subst h1
      have hob : alLookup st.binding_to_action (accParse binding) = some name :=
        hwf.1.2 name _ hmem
      exact (WF_iff_WF2 _).mpr (WF2_detach ((WF_iff_WF2 st).mp hwf) hob)
    · cases hkey : alLookup st.action_to_bindings name with
      | some L =>
          rw [clear_accel_notmem hn hkey hmem] at h
          cases h
      | none =>
          rw [clear_accel_nokey hn hkey] at h
          cases h
  · rw [clear_accel_invalid hn] at h
    cases h

theorem applyOp_WF {accParse : String → Binding} {st st2 : KMState} {op : Op}
    (hwf : WF st) (h : applyOp accParse st op = Res.ok st2 ()) : WF st2 := by
  cases op with
  | reg n d c => exact register_WF hwf h
  | edit n nb ob =>
      simp only [applyOp] at h
      cases hres : edit_accel accParse n nb ob st with
      | ok st3 r =>
          rw [hres] at h
          injection h with h1 h2
          subst h1
          exact edit_WF hwf hres
      | err st3 e =>
          rw [hres] at h
          cases h
  | clear n b => exact clear_WF hwf h

theorem runOps_WF {accParse : String → Binding} {ops : List Op}
    {st st2 : KMState} (hwf : WF st)
    (h : runOps accParse ops st = some st2) : WF st2 := by
  induction ops generalizing st with
  | nil =>
      unfold runOps at h
      injection h with h1
      subst h1
      exact hwf
  | cons op ops ih =>
      unfold runOps at h
      cases happ : applyOp accParse st op with
      | ok st3 v =>
          rw [happ] at h
          cases v
          exact ih (applyOp_WF hwf happ) h
      | err st3 e =>
          rw [happ] at h
          cases h

end EditClearLemmas

section ExecuteLemmas

theorem fuzzyFind_spec {kb : Binding} {l : List (Binding × String)}
    {b : Binding} {a : String} (h : fuzzyFind kb l = some (b, a)) :
    b.1 = kb.1 ∧ b.2 &&& kb.2 ≠ 0 ∧ (b, a) ∈ l := by
  induction l with
  | nil => simp [fuzzyFind] at h
  | cons p l ih =>
      obtain ⟨b2, a2⟩ := p
      by_cases h2 : b2.1 = kb.1 ∧ b2.2 &&& kb.2 ≠ 0
      · simp only [fuzzyFind, if_pos h2] at h
        injection h with h3
        injection h3 with h4 h5
        subst h4
        subst h5
        exact ⟨h2.1, h2.2, List.mem_cons_self _ _⟩
      · simp only [fuzzyFind, if_neg h2] at h
        obtain ⟨e1, e2, e3⟩ := ih h
        exact ⟨e1, e2, List.mem_cons_of_mem _ e3⟩

theorem execute_tier1 {st : KMState} {kb : Binding} {action : String}
    {cb : Callback} (h1 : alLookup st.binding_to_action kb = some action)
    (hcb : alLookup st.action_to_callback action = some cb) :
    execute st kb = ExecOutcome.invoked cb := by
  simp [execute, h1, invokeAction, hcb]

theorem execute_tier2 {st : KMState} {kb b : Binding} {action : String}
    {cb : Callback} (h1 : alLookup st.binding_to_action kb = none)
    (h2 : fuzzyFind kb st.binding_to_action = some (b, action))
    (hcb : alLookup st.action_to_callback action = some cb) :
    execute st kb = ExecOutcome.invoked cb := by
  simp [execute, h1, h2, invokeAction, hcb]

theorem execute_tier3 {st : KMState} {kb : Binding} {action : String}
    {cb : Callback} (h1 : alLookup st.binding_to_action kb = none)
    (h2 : fuzzyFind kb st.binding_to_action = none)
    (h3 : alLookup st.binding_to_action (kb.1, 0) = some action)
    (hcb : alLookup st.action_to_callback action = some cb) :
    execute st kb = ExecOutcome.invoked cb := by
  simp [execute, h1, h2, h3, invokeAction, hcb]

theorem execute_nomatch {st : KMState} {kb : Binding}
    (h1 : alLookup st.binding_to_action kb = none)
    (h2 : fuzzyFind kb st.binding_to_action = none)
    (h3 : alLookup st.binding_to_action (kb.1, 0) = none) :
    execute st kb = ExecOutcome.noMatch := by
  simp [execute, h1, h2, h3]

end ExecuteLemmas

section InitLemmas

theorem BINDING_INFO_nodup : BINDING_INFO.Nodup := by decide

theorem initStep_lookup_ne {accParse : String → Binding}
    {doc : List (String × List String)} {st : KMState} {action a : String}
    (h : a ≠ action) :
    alLookup (initStep accParse doc st action).action_to_bindings a
      = alLookup st.action_to_bindings a := by
  cases hd : alLookup doc action with
  | some ns =>
      simp only [initStep, hd]
      exact alLookup_insert_ne _ _ _ _ h
  | none =>
      simp only [initStep, hd]
      exact alLookup_insert_ne _ _ _ _ h

theorem initStep_lookup_self {accParse : String → Binding}
    {doc : List (String × List String)} {st : KMState} {action : String} :
    alLookup (initStep accParse doc st action).action_to_bindings action
      = some (match alLookup doc action with
              | some ns => ns.map accParse
              | none => []) := by
  cases hd : alLookup doc action with
  | some ns =>
      simp only [initStep, hd]
      exact alLookup_insert_self _ _ _
  | none =>
      simp only [initStep, hd]
      exact alLookup_insert_self _ _ _

theorem initFold_notin (accParse : String → Binding)
    (doc : List (String × List String)) (L : List String) (st : KMState)
    (a : String) (h : a ∉ L) :
    alLookup ((L.foldl (initStep accParse doc) st)).action_to_bindings a
      = alLookup st.action_to_bindings a := by
  induction L generalizing st with
  | nil => rfl
  | cons x L ih =>
      simp only [List.mem_cons] at h
      push_neg at h
      rw [List.foldl_cons]
      rw [ih _ h.2]
      exact initStep_lookup_ne h.1

theorem initFold_mem (accParse : String → Binding)
    (doc : List (String × List String)) (L : List String) (st : KMState)
    (a : String) (hmem : a ∈ L) (hnd : L.Nodup) :
    alLookup ((L.foldl (initStep accParse doc) st)).action_to_bindings a
      = some (match alLookup doc a with
              | some ns => ns.map accParse
              | none => []) := by
  induction L generalizing st with
  | nil => cases hmem
  | cons x L ih =>
      simp only [List.nodup_cons] at hnd
      rw [List.foldl_cons]
      rcases List.mem_cons.mp hmem with h3 | h3
      · subst h3
        rw [initFold_notin _ _ _ _ _ hnd.1]
        exact initStep_lookup_self
      · exact ih _ h3 hnd.2

end InitLemmas

section RegisterConflictLemmas

theorem regStep_views_of_some (name : String) {st : KMState} {owner : String}
    {kc : Binding} (hl : alLookup st.binding_to_action kc = some owner) :
    (regStep name st kc).action_to_bindings = st.action_to_bindings ∧
    (regStep name st kc).binding_to_action = st.binding_to_action ∧
    (regStep name st kc).action_to_callback = st.action_to_callback ∧
    (regStep name st kc).saveCount = st.saveCount := by
  by_cases h2 : owner = name
  · rw [h2] at hl
    rw [regStep_of_eq hl]
    exact ⟨rfl, rfl, rfl, rfl⟩
  · rw [regStep_warn hl h2]
    exact ⟨rfl, rfl, rfl, rfl⟩

theorem regStep_b2a_pres {st : KMState} {name : String} {kc0 kc2 : Binding}
    {A : String} (hA : alLookup st.binding_to_action kc0 = some A) :
    alLookup (regStep name st kc2).binding_to_action kc0 = some A := by
  cases hl : alLookup st.binding_to_action kc2 with
  | some owner => rw [(regStep_views_of_some name hl).2.1]; exact hA
  | none =>
      rw [regStep_of_none hl]
      have hne : kc0 ≠ kc2 := by
        intro hh
        rw [hh, hl] at hA
        cases hA
      show alLookup (alInsert st.binding_to_action kc2 name) kc0 = some A
      rw [alLookup_insert_ne _ _ _ _ hne]
      exact hA

theorem regStep_notmem_pres {st : KMState} {name : String} {kc0 kc2 : Binding}
    {A : String} (hA : alLookup st.binding_to_action kc0 = some A)
    (h : kc0 ∉ bindingsOf st name) :
    kc0 ∉ bindingsOf (regStep name st kc2) name := by
  cases hl : alLookup st.binding_to_action kc2 with
  | some owner =>
      have he : bindingsOf (regStep name st kc2) name = bindingsOf st name := by
        unfold bindingsOf
        rw [(regStep_views_of_some name hl).1]
      rw [he]
      exact h
  | none =>
      rw [regStep_of_none hl]
      intro hmem
      have hmem2 : kc0 ∈ (alLookup
          (alInsert st.action_to_bindings name (bindingsOf st name ++ [kc2]))
          name).getD [] := hmem
      rw [alLookup_insert_self] at hmem2
      simp only [Option.getD_some] at hmem2
      rcases List.mem_append.mp hmem2 with h3 | h3
      · exact h h3
      · simp only [List.mem_singleton] at h3
        rw [h3, hl] at hA
        cases hA

theorem regStep_warnings_pres {st : KMState} {name : String} {kc2 : Binding}
    {w : Binding × String × String} (h : w ∈ st.warnings) :
    w ∈ (regStep name st kc2).warnings := by
  cases hl : alLookup st.binding_to_action kc2 with
  | some owner =>
      by_cases h2 : owner = name
      · rw [h2] at hl
        rw [regStep_of_eq hl]
        exact h
      · rw [regStep_warn hl h2]
        show w ∈ st.warnings ++ [(kc2, name, owner)]
        exact List.mem_append_left _ h
  | none =>
      rw [regStep_of_none hl]
      exact h

theorem foldl_regStep_b2a_pres {name : String} {kc0 : Binding} {A : String}
    (l : List Binding) {st : KMState}
    (hA : alLookup st.binding_to_action kc0 = some A) :
    alLookup ((l.foldl (regStep name) st)).binding_to_action kc0 = some A := by
  induction l generalizing st with
  | nil => exact hA
  | cons kc l ih => exact ih (regStep_b2a_pres hA)

theorem foldl_regStep_notmem {name : String} {kc0 : Binding} {A : String}
    (l : List Binding) {st : KMState}
    (hA : alLookup st.binding_to_action kc0 = some A)
    (h : kc0 ∉ bindingsOf st name) :
    kc0 ∉ bindingsOf (l.foldl (regStep name) st) name := by
  induction l generalizing st with
  | nil => exact h
  | cons kc l ih =>
      exact ih (regStep_b2a_pres hA) (regStep_notmem_pres hA h)

theorem foldl_regStep_warn_pres {name : String} {w : Binding × String × String}
    (l : List Binding) {st : KMState} (h : w ∈ st.warnings) :
    w ∈ ((l.foldl (regStep name) st)).warnings := by
  induction l generalizing st with
  | nil => exact h
  | cons kc l ih => exact ih (regStep_warnings_pres h)

theorem foldl_regStep_warn_new {name : String} {kc0 : Binding} {A : String}
    (l : List Binding) {st : KMState} (hkc : kc0 ∈ l)
    (hA : alLookup st.binding_to_action kc0 = some A) (hAne : A ≠ name) :
    (kc0, name, A) ∈ ((l.foldl (regStep name) st)).warnings := by
  induction l generalizing st with
  | nil => cases hkc
  | cons kc l ih =>
      rcases List.mem_cons.mp hkc with h3 | h3
      · subst h3
        rw [List.foldl_cons]
        apply foldl_regStep_warn_pres
        rw [regStep_warn hA hAne]
        show (kc0, name, A) ∈ st.warnings ++ [(kc0, name, A)]
        exact List.mem_append_right _ (List.mem_cons_self _ _)
      · exact ih h3 (regStep_b2a_pres hA)

theorem registerViews_defaults {accParse : String → Binding} {name : String}
    {defaults : List String} {st : KMState}
    (hempty : bindingsOf st name = []) :
    registerViews accParse name defaults st
      = (defaults.map accParse).foldl (regStep name)
          { st with action_to_bindings := alEnsure st.action_to_bindings name } := by
  have h0 : bindingsOf
      { st with action_to_bindings := alEnsure st.action_to_bindings name } name
      = [] := (bindingsOf_ensure st name name).trans hempty
  simp [registerViews, h0]

theorem registerViews_stored {accParse : String → Binding} {name : String}
    {defaults : List String} {st : KMState} {L : List Binding}
    (hL : alLookup st.action_to_bindings name = some L) (hne : L ≠ []) :
    registerViews accParse name defaults st
      = regLoopA name (2 * (bindingsOf st name).length + 1) 0 st := by
  simp [registerViews, alEnsure_of_some hL, bindingsOf, hL, hne]

theorem regLoopA_views (name : String) (fuel : Nat) :
    ∀ (i : Nat) (st : KMState),
    (∀ kc ∈ bindingsOf st name, (alLookup st.binding_to_action kc).isSome) →
    (regLoopA name fuel i st).action_to_bindings = st.action_to_bindings ∧
    (regLoopA name fuel i st).binding_to_action = st.binding_to_action ∧
    (regLoopA name fuel i st).action_to_callback = st.action_to_callback ∧
    (regLoopA name fuel i st).saveCount = st.saveCount := by
  induction fuel with
  | zero => exact fun i st _ => ⟨rfl, rfl, rfl, rfl⟩
  | succ fuel ih =>
      intro i st h
      rw [regLoopA]
      split
      · next hlt =>
          have hkc : (bindingsOf st name).get ⟨i, hlt⟩ ∈ bindingsOf st name :=
            List.get_mem _ _ _
          obtain ⟨owner, howner⟩ :=
            Option.isSome_iff_exists.mp (h _ hkc)
          have hv := regStep_views_of_some name howner
          have h2 : ∀ kc ∈ bindingsOf
                (regStep name st ((bindingsOf st name).get ⟨i, hlt⟩)) name,
              (alLookup (regStep name st
                ((bindingsOf st name).get ⟨i, hlt⟩)).binding_to_action
                kc).isSome := by
            intro kc hkc2
            have e1 : bindingsOf
                (regStep name st ((bindingsOf st name).get ⟨i, hlt⟩)) name
                = bindingsOf st name := bindingsOf_congr hv.1 name
            rw [e1] at hkc2
            rw [hv.2.1]
            exact h kc hkc2
          obtain ⟨e1, e2, e3, e4⟩ := ih (i + 1) _ h2
          exact ⟨e1.trans hv.1, e2.trans hv.2.1, e3.trans hv.2.2.1,
                 e4.trans hv.2.2.2⟩
      · exact ⟨rfl, rfl, rfl, rfl⟩

end RegisterConflictLemmas

section ResultHelpers

theorem bindingsOf_of_a2b_insert {st2 : KMState}
    {l : List (String × List Binding)} {name : String} {L : List Binding}
    (h : st2.action_to_bindings = alInsert l name L) :
    bindingsOf st2 name = L := by
  unfold bindingsOf
  rw [h, alLookup_insert_self]
  rfl

theorem bindingsOf_of_a2b_insert_ne {st2 : KMState}
    {l : List (String × List Binding)} {name a : String} {L : List Binding}
    (h : st2.action_to_bindings = alInsert l name L) (hne : a ≠ name) :
    bindingsOf st2 a = (alLookup l a).getD [] := by
  unfold bindingsOf
  rw [h, alLookup_insert_ne _ _ _ _ hne]

end ResultHelpers

section Claims

/-- C2: for every captured event binding, `execute` tries exactly three
tiers in order — exact lookup, a fuzzy scan matching equal key codes with
a non-zero bitwise and of the stored mask against the event mask, then a
bare (key code, 0) lookup — and the first matching tier marks the event
handled and returns the invocation of that action's registered callback
triple. -/
theorem c2_three_tier_resolution (st : KMState) (kb : Binding) :
    (∀ action cb, alLookup st.binding_to_action kb = some action →
      alLookup st.action_to_callback action = some cb →
      execute st kb = ExecOutcome.invoked cb ∧ handled (execute st kb) = true) ∧
    (∀ b action cb, alLookup st.binding_to_action kb = none →
      fuzzyFind kb st.binding_to_action = some (b, action) →
      alLookup st.action_to_callback action = some cb →
      (b.1 = kb.1 ∧ b.2 &&& kb.2 ≠ 0 ∧ (b, action) ∈ st.binding_to_action) ∧
      execute st kb = ExecOutcome.invoked cb ∧ handled (execute st kb) = true) ∧
    (∀ action cb, alLookup st.binding_to_action kb = none →
      fuzzyFind kb st.binding_to_action = none →
      alLookup st.binding_to_action (kb.1, 0) = some action →
      alLookup st.action_to_callback action = some cb →
      execute st kb = ExecOutcome.invoked cb ∧ handled (execute st kb) = true) := by
  refine ⟨?_, ?_, ?_⟩
  · intro action cb h1 hcb
    rw [execute_tier1 h1 hcb]
    exact ⟨rfl, rfl⟩
  · intro b action cb h1 h2 hcb
    refine ⟨fuzzyFind_spec h2, ?_, ?_⟩
    · exact execute_tier2 h1 h2 hcb
    · rw [execute_tier2 h1 h2 hcb]
      rfl
  · intro action cb h1 h2 h3 hcb
    rw [execute_tier3 h1 h2 h3 hcb]
    exact ⟨rfl, rfl⟩

/-- Witness for C2: the event (97, 6) has no exact entry but fuzzily
matches the stored binding (97, 4) of "zoom in", whose callback is
invoked with the event marked handled. -/
theorem c2_witness :
    execute c2st (97, 6) = ExecOutcome.invoked cb0 ∧
    handled (execute c2st (97, 6)) = true :=
  ((c2_three_tier_resolution c2st (97, 6)).2.1 (97, 4) "zoom in" cb0
    (by decide) (by decide) (by decide)).2

/-- C9: when none of the three tiers matches, `execute` produces nothing,
invokes no callback, and the event is not marked handled (and the model's
`execute` is a pure reader of the state, so no registry state changes). -/
theorem c9_no_match_noop (st : KMState) (kb : Binding)
    (h1 : alLookup st.binding_to_action kb = none)
    (h2 : fuzzyFind kb st.binding_to_action = none)
    (h3 : alLookup st.binding_to_action (kb.1, 0) = none) :
    execute st kb = ExecOutcome.noMatch ∧ handled (execute st kb) = false := by
  rw [execute_nomatch h1 h2 h3]
  exact ⟨rfl, rfl⟩

/-- Witness for C9: the event (98, 4) matches no tier in `c2st`. -/
theorem c9_witness :
    execute c2st (98, 4) = ExecOutcome.noMatch ∧
    handled (execute c2st (98, 4)) = false :=
  c9_no_match_noop c2st (98, 4) (by decide) (by decide) (by decide)

/-- Helper for the C4 witness: every binding list of `c4st` is empty. -/
theorem c4st_empty (a : String) : bindingsOf c4st a = [] := by
  unfold bindingsOf
  cases hl : alLookup c4st.action_to_bindings a with
  | none => rfl
  | some L =>
      have hm : (a, L) ∈ BINDING_INFO.map (fun x => (x, ([] : List Binding))) :=
        alLookup_mem hl
      rw [List.mem_map] at hm
      obtain ⟨x, hx, he⟩ := hm
      injection he with he1 he2
      rw [← he2]
      rfl

/-- C4: for a registry state whose action-to-bindings view keys exactly
the catalog actions (as any initialised registry does), `save()` followed
by a fresh construction that loads the saved document reconstructs an
identical action-to-bindings mapping, each list in the same order,
provided the accelerator serialisation round-trips on the stored
bindings. -/
theorem c4_save_load_roundtrip (accParse : String → Binding)
    (accName : Binding → String) (st : KMState)
    (hsub : ∀ a ∈ alKeys st.action_to_bindings, a ∈ BINDING_INFO)
    (hall : ∀ a ∈ BINDING_INFO, a ∈ alKeys st.action_to_bindings)
    (hrt : ∀ a, ∀ b ∈ bindingsOf st a, accParse (accName b) = b) :
    ∀ a, alLookup (initFromDoc accParse (saveDoc accName st)).action_to_bindings a
        = alLookup st.action_to_bindings a := by
  intro a
  by_cases hmem : a ∈ BINDING_INFO
  · rw [initFromDoc,
      initFold_mem accParse (saveDoc accName st) BINDING_INFO initialState a
        hmem BINDING_INFO_nodup]
    cases hL : alLookup st.action_to_bindings a with
    | none => exact absurd (hall a hmem) (not_mem_alKeys_of_none hL)
    | some L =>
        have hdoc : alLookup (saveDoc accName st) a = some (L.map accName) := by
          show alLookup
            (st.action_to_bindings.map (fun p => (p.1, p.2.map accName))) a
            = some (L.map accName)
          rw [alLookup_map (List.map accName) st.action_to_bindings a, hL]
          rfl
        rw [hdoc]
        show some ((L.map accName).map accParse) = some L
        congr 1
        rw [List.map_map]
        have hcong : ∀ b ∈ L, (accParse ∘ accName) b = id b := by
          intro b hb
          show accParse (accName b) = b
          apply hrt a
          show b ∈ (alLookup st.action_to_bindings a).getD []
          rw [hL]
          exact hb
        rw [List.map_congr_left hcong, List.map_id]
  · rw [initFromDoc,
      initFold_notin accParse (saveDoc accName st) BINDING_INFO initialState a
        hmem]
    have h2 : a ∉ alKeys st.action_to_bindings := fun hh => hmem (hsub a hh)
    rw [alLookup_eq_none _ _ h2]
    rfl

/-- Witness for C4: the freshly initialised state `c4st` round-trips; the
witness reads back the entry of "zoom in". -/
theorem c4_witness :
    alLookup (initFromDoc accP0 (saveDoc accN0 c4st)).action_to_bindings
      "zoom in"
      = alLookup c4st.action_to_bindings "zoom in" :=
  c4_save_load_roundtrip accP0 accN0 c4st (by decide) (by decide)
    (fun a b hb => absurd (c4st_empty a ▸ hb) (List.not_mem_nil b)) "zoom in"

/-- C6: for a valid action that is keyed in the registry (as every
initialised registry keys all catalog actions), clearing a binding not
currently associated with that action raises the NotBound condition
(Python ValueError from `list.remove`) and leaves the whole state — both
views, the callbacks, and the save count — unchanged. -/
theorem c6_clear_notbound (accParse : String → Binding) (name binding : String)
    (st : KMState) (L : List Binding)
    (hname : name ∈ BINDING_INFO)
    (hkey : alLookup st.action_to_bindings name = some L)
    (hnot : accParse binding ∉ bindingsOf st name) :
    clear_accel accParse name binding st = Res.err st PyErr.valueError :=
  clear_accel_notmem hname hkey hnot

/-- Witness for C6: clearing "x" (parsed (120, 0)) from "zoom in", whose
only binding is (97, 0), fails and returns the state untouched. -/
theorem c6_witness :
    clear_accel accP0 "zoom in" "x" c6st = Res.err c6st PyErr.valueError :=
  c6_clear_notbound accP0 "zoom in" "x" c6st [(97, 0)] (by decide) (by decide)
    (by decide)

/-- Counterexample for C1 as stated: registering "zoom in" with default
"a" while (97, 0) is owned by "zoom out" logs the conflict and leaves the
owner, but the binding is NOT recorded in "zoom in"'s own list. -/
theorem c1_counterexample :
    alLookup c1st.binding_to_action (97, 0) = some "zoom out" ∧
    isOk (register accP0 "zoom in" ["a"] cb0 c1st) = true ∧
    ((97, 0), "zoom in", "zoom out")
      ∈ (resState (register accP0 "zoom in" ["a"] cb0 c1st)).warnings ∧
    (97, 0) ∉ bindingsOf (resState (register accP0 "zoom in" ["a"] cb0 c1st))
      "zoom in" := by
  decide

/-- C1 (amended): when register adopts a default binding already mapped to
a different action, the existing mapping is left in place and a conflict
warning is logged, but the binding is NOT added to the new action's own
binding list — the callback is still installed. -/
theorem c1_register_conflict (accParse : String → Binding) (name : String)
    (defaults : List String) (cb : Callback) (st : KMState) (kc : Binding)
    (A : String)
    (hname : name ∈ BINDING_INFO)
    (hempty : bindingsOf st name = [])
    (hkc : kc ∈ defaults.map accParse)
    (hA : alLookup st.binding_to_action kc = some A)
    (hAne : A ≠ name) :
    isOk (register accParse name defaults cb st) = true ∧
    alLookup (resState (register accParse name defaults cb st)).binding_to_action
      kc = some A ∧
    (kc, name, A) ∈ (resState (register accParse name defaults cb st)).warnings ∧
    kc ∉ bindingsOf (resState (register accParse name defaults cb st)) name ∧
    alLookup (resState (register accParse name defaults cb st)).action_to_callback
      name = some cb := by
  rw [register_ok hname, registerViews_defaults hempty]
  have hA0 : alLookup ({ st with
      action_to_bindings := alEnsure st.action_to_bindings name }
      : KMState).binding_to_action kc = some A := hA
  have hempty0 : kc ∉ bindingsOf
      { st with action_to_bindings := alEnsure st.action_to_bindings name }
      name := by
    rw [bindingsOf_ensure st name name, hempty]
    exact List.not_mem_nil _
  refine ⟨rfl, ?_, ?_, ?_, ?_⟩
  · exact foldl_regStep_b2a_pres (defaults.map accParse) hA0
  · exact foldl_regStep_warn_new (defaults.map accParse) hkc hA0 hAne
  · exact foldl_regStep_notmem (defaults.map accParse) hA0 hempty0
  · show alLookup (alInsert ((defaults.map accParse).foldl (regStep name)
        { st with action_to_bindings := alEnsure st.action_to_bindings name }
        ).action_to_callback name cb) name = some cb
    exact alLookup_insert_self _ _ _

/-- Witness for the amended C1, at the concrete conflicting state. -/
theorem c1_witness :
    alLookup
      (resState (register accP0 "zoom in" ["a"] cb0 c1st)).binding_to_action
      (97, 0) = some "zoom out" ∧
    ((97, 0), "zoom in", "zoom out")
      ∈ (resState (register accP0 "zoom in" ["a"] cb0 c1st)).warnings :=
  ⟨(c1_register_conflict accP0 "zoom in" ["a"] cb0 c1st (97, 0) "zoom out"
      (by decide) (by decide) (by decide) (by decide) (by decide)).2.1,
   (c1_register_conflict accP0 "zoom in" ["a"] cb0 c1st (97, 0) "zoom out"
      (by decide) (by decide) (by decide) (by decide) (by decide)).2.2.1⟩

/-- Counterexample for C3 as stated: the two views of `c3st` agree on
membership, yet one successful edit_binding call leaves (97, 0) in
"zoom in"'s list with no reverse mapping — agreement alone is not
preserved when a binding list contains duplicates. -/
theorem c3_counterexample :
    Consistent c3st ∧
    runOps accP0 c3ops c3st = some c3stR ∧
    (97, 0) ∈ bindingsOf c3stR "zoom in" ∧
    alLookup c3stR.binding_to_action (97, 0) = none ∧
    ¬ Consistent c3stR := by
  refine ⟨⟨?_, ?_⟩, by decide, by decide, by decide, ?_⟩
  · intro b a hba
    have hm : (b, a) ∈ [(((97, 0) : Binding), "zoom in")] := alLookup_mem hba
    simp only [List.mem_singleton] at hm
    injection hm with h1 h2
    subst h1
    subst h2
    decide
  · intro a b hb
    cases hl : alLookup c3st.action_to_bindings a with
    | none =>
        have he : bindingsOf c3st a = [] := by
          unfold bindingsOf
          rw [hl]
          rfl
        rw [he] at hb
        cases hb
    | some L =>
        have hm : (a, L) ∈ [("zoom in", [((97, 0) : Binding), (97, 0)])] :=
          alLookup_mem hl
        simp only [List.mem_singleton] at hm
        injection hm with h1 h2
        subst h1
        subst h2
        have he : bindingsOf c3st "zoom in"
            = [((97, 0) : Binding), (97, 0)] := by
          unfold bindingsOf
          rw [hl]
          rfl
        rw [he] at hb
        rcases List.mem_cons.mp hb with h3 | h3
        · subst h3
          decide
        · simp only [List.mem_singleton] at h3
          subst h3
          decide
  · intro hcon
    have h2 := hcon.2 "zoom in" (97, 0) (by decide)
    have h3 : alLookup c3stR.binding_to_action (97, 0) = none := by decide
    rw [h3] at h2
    cases h2

/-- C3 (amended): starting from a state where the two views agree, no
action's binding list has duplicates, and the binding-to-action keys are
unique (automatic for a Python dict), every sequence of successful
register, edit_binding and clear_binding calls preserves mutual
consistency and duplicate-freedom. -/
theorem c3_consistency_preserved (accParse : String → Binding) (ops : List Op)
    (st st2 : KMState) (hwf : WF st)
    (hrun : runOps accParse ops st = some st2) :
    Consistent st2 ∧ ∀ a, (bindingsOf st2 a).Nodup := by
  obtain ⟨h1, h2, h3⟩ := runOps_WF hwf hrun
  exact ⟨h1, h2⟩

/-- Witness for the amended C3: one register call from the empty state;
the resulting views agree, read back at (97, 0). -/
theorem c3_witness :
    alLookup c3wres.binding_to_action (97, 0) = some "zoom in" :=
  (c3_consistency_preserved accP0 c3wops initialState c3wres
    (wfChk_sound (by decide)) (by decide)).1.2 "zoom in" (97, 0) (by decide)

/-- Counterexample for C5 as stated: `get_bindings_for_action` performs no
catalog validation — on an unknown action it succeeds, returns an empty
list, and even mutates the registry (the defaultdict read inserts an
empty entry). -/
theorem c5_counterexample :
    "no such action" ∉ BINDING_INFO ∧
    (get_bindings_for_action "no such action" initialState).1 ≠ initialState ∧
    (get_bindings_for_action "no such action" initialState).2 = [] := by
  decide

/-- C5 (amended): register, edit_binding and clear_binding reject an
unknown action name with the UnknownAction assertion and leave the state
completely unchanged; get_bindings_for_action, however, does not validate:
it returns an empty list and inserts an empty entry for the unknown
name. -/
theorem c5_unknown_action (accParse : String → Binding) (st : KMState)
    (name : String) (defaults : List String) (cb : Callback)
    (newB oldB binding : String)
    (h : name ∉ BINDING_INFO) :
    register accParse name defaults cb st = Res.err st PyErr.assertionError ∧
    edit_accel accParse name newB oldB st = Res.err st PyErr.assertionError ∧
    clear_accel accParse name binding st = Res.err st PyErr.assertionError ∧
    (name ∉ alKeys st.action_to_bindings →
      get_bindings_for_action name st
        = ({ st with
            action_to_bindings := st.action_to_bindings ++ [(name, [])] },
           [])) := by
  refine ⟨by simp [register, h], edit_accel_invalid h, clear_accel_invalid h, ?_⟩
  intro hkey
  have hnone : alLookup st.action_to_bindings name = none :=
    alLookup_eq_none _ _ hkey
  simp [get_bindings_for_action, alEnsure, hnone, bindingsOf,
    alLookup_append, alLookup]

/-- Witness for the amended C5 at a concrete unknown name. -/
theorem c5_witness :
    register accP0 "no such action" [] cb0 initialState
      = Res.err initialState PyErr.assertionError ∧
    get_bindings_for_action "no such action" initialState
      = ({ initialState with
          action_to_bindings :=
            initialState.action_to_bindings ++ [("no such action", [])] },
         []) :=
  ⟨(c5_unknown_action accP0 initialState "no such action" [] cb0 "x" "a" "a"
      (by decide)).1,
   (c5_unknown_action accP0 initialState "no such action" [] cb0 "x" "a" "a"
      (by decide)).2.2.2 (by decide)⟩

/-- Counterexample for C7 as stated: in `c7st` the old binding (97, 0)
sits at index 1 of "zoom in"'s list, but because the new binding (120, 0)
is already bound to the same action, the detach step shifts the list and
the result is not a same-index replacement. -/
theorem c7_counterexample :
    lidx (bindingsOf c7st "zoom in") (97, 0) = some 1 ∧
    isOk (edit_accel accP0 "zoom in" "x" "a" c7st) = true ∧
    bindingsOf (resState (edit_accel accP0 "zoom in" "x" "a" c7st)) "zoom in"
      ≠ lset (bindingsOf c7st "zoom in") 1 (120, 0) := by
  decide

/-- C7 (amended): in a well-formed state, when the new binding is not
already bound to the same action, edit_binding with a non-empty old
binding replaces the old binding by the new one at its first index,
leaving every other element in place, and swaps the reverse mapping:
the new binding maps to the action and the old binding is removed. -/
theorem c7_edit_preserves_position (accParse : String → Binding)
    (name newB oldB : String) (st : KMState) (i : Nat)
    (hwf : WF st) (hname : name ∈ BINDING_INFO) (hold : oldB ≠ "")
    (hnb : alLookup st.binding_to_action (accParse newB) ≠ some name)
    (hidx : lidx (bindingsOf st name) (accParse oldB) = some i) :
    isOk (edit_accel accParse name newB oldB st) = true ∧
    bindingsOf (resState (edit_accel accParse name newB oldB st)) name
      = lset (bindingsOf st name) i (accParse newB) ∧
    alLookup
      (resState (edit_accel accParse name newB oldB st)).binding_to_action
      (accParse newB) = some name ∧
    alLookup
      (resState (edit_accel accParse name newB oldB st)).binding_to_action
      (accParse oldB) = none := by
  have hoption : (if oldB ≠ "" then some (accParse oldB) else none)
      = some (accParse oldB) := if_pos hold
  have hobmem : accParse oldB ∈ bindingsOf st name := lidx_mem hidx
  have hob : alLookup st.binding_to_action (accParse oldB) = some name :=
    hwf.1.2 name _ hobmem
  have hobnb : accParse oldB ≠ accParse newB := by
    intro hh
    rw [← hh] at hnb
    exact hnb hob
  cases hl : alLookup st.binding_to_action (accParse newB) with
  | none =>
      rw [edit_accel_none hname hl, hoption, editPhase2_replace_ok hwf hidx]
      refine ⟨rfl, ?_, ?_, ?_⟩
      · exact bindingsOf_of_a2b_insert rfl
      · show alLookup (alInsert (alPop st.binding_to_action (accParse oldB))
            (accParse newB) name) (accParse newB) = some name
        exact alLookup_insert_self _ _ _
      · show alLookup (alInsert (alPop st.binding_to_action (accParse oldB))
            (accParse newB) name) (accParse oldB) = none
        rw [alLookup_insert_ne _ _ _ _ hobnb]
        exact alLookup_pop_self _ _ hwf.2.2
  | some owner =>
      have howner : owner ≠ name := fun hh => hnb (hh ▸ hl)
      rw [edit_accel_some hname hwf hl, hoption]
      set stD : KMState := { st with
        binding_to_action := alPop st.binding_to_action (accParse newB),
        action_to_bindings := alInsert st.action_to_bindings owner
          (lrm (bindingsOf st owner) (accParse newB)) } with hstD
      have hbD : bindingsOf stD name = bindingsOf st name := by
        rw [hstD]
        exact bindingsOf_of_a2b_insert_ne rfl (fun hh => howner hh.symm)
      have hwfD : WF stD := by
        rw [hstD]
        exact (WF_iff_WF2 _).mpr (WF2_detach ((WF_iff_WF2 st).mp hwf) hl)
      have hidxD : lidx (bindingsOf stD name) (accParse oldB) = some i := by
        rw [hbD]
        exact hidx
      rw [editPhase2_replace_ok hwfD hidxD]
      refine ⟨rfl, ?_, ?_, ?_⟩
      · rw [bindingsOf_of_a2b_insert rfl, hbD]
      · show alLookup (alInsert (alPop stD.binding_to_action (accParse oldB))
            (accParse newB) name) (accParse newB) = some name
        exact alLookup_insert_self _ _ _
      · show alLookup (alInsert (alPop stD.binding_to_action (accParse oldB))
            (accParse newB) name) (accParse oldB) = none
        rw [alLookup_insert_ne _ _ _ _ hobnb]
        exact alLookup_pop_self _ _ hwfD.2.2

/-- Witness for the amended C7 at a concrete state: replacing "a" by "x"
in "zoom in"'s single-element list keeps the index. -/
theorem c7_witness :
    isOk (edit_accel accP0 "zoom in" "x" "a" c6st) = true ∧
    bindingsOf (resState (edit_accel accP0 "zoom in" "x" "a" c6st)) "zoom in"
      = lset (bindingsOf c6st "zoom in") 0 (accP0 "x") :=
  ⟨(c7_edit_preserves_position accP0 "zoom in" "x" "a" c6st 0
      (wfChk_sound (by decide)) (by decide) (by decide) (by decide)
      (by decide)).1,
   (c7_edit_preserves_position accP0 "zoom in" "x" "a" c6st 0
      (wfChk_sound (by decide)) (by decide) (by decide) (by decide)
      (by decide)).2.1⟩

/-- C8: re-registering an action that already has a non-empty binding
list on record (its bindings being claimed in the reverse view, as
consistency guarantees) leaves both views and the save count unchanged —
the supplied defaults are ignored — and only overwrites the stored
callback triple. -/
theorem c8_reregister_only_callback (accParse : String → Binding)
    (name : String) (defaults : List String) (cb : Callback) (st : KMState)
    (hname : name ∈ BINDING_INFO)
    (hnonempty : bindingsOf st name ≠ [])
    (hall : ∀ kc ∈ bindingsOf st name,
      (alLookup st.binding_to_action kc).isSome) :
    isOk (register accParse name defaults cb st) = true ∧
    (resState (register accParse name defaults cb st)).action_to_bindings
      = st.action_to_bindings ∧
    (resState (register accParse name defaults cb st)).binding_to_action
      = st.binding_to_action ∧
    (resState (register accParse name defaults cb st)).action_to_callback
      = alInsert st.action_to_callback name cb ∧
    (resState (register accParse name defaults cb st)).saveCount
      = st.saveCount := by
  obtain ⟨L, hL, hLe⟩ := bindingsOf_isSome hnonempty
  have hne : L ≠ [] := by
    rw [← hLe]
    exact hnonempty
  rw [register_ok hname, registerViews_stored hL hne]
  obtain ⟨e1, e2, e3, e4⟩ :=
    regLoopA_views name (2 * (bindingsOf st name).length + 1) 0 st hall
  refine ⟨rfl, e1, e2, ?_, e4⟩
  show alInsert
      (regLoopA name (2 * (bindingsOf st name).length + 1) 0 st).action_to_callback
      name cb = alInsert st.action_to_callback name cb
  rw [e3]

/-- Witness for C8: re-registering "zoom in" with a new default and a new
callback leaves both views of `c6st` alone and overwrites the callback. -/
theorem c8_witness :
    (resState (register accP0 "zoom in" ["x"] cb1 c6st)).action_to_bindings
      = c6st.action_to_bindings ∧
    (resState (register accP0 "zoom in" ["x"] cb1 c6st)).action_to_callback
      = alInsert c6st.action_to_callback "zoom in" cb1 :=
  ⟨(c8_reregister_only_callback accP0 "zoom in" ["x"] cb1 c6st (by decide)
      (by decide) (by decide)).2.1,
   (c8_reregister_only_callback accP0 "zoom in" ["x"] cb1 c6st (by decide)
      (by decide) (by decide)).2.2.2.1⟩

/-- C10: edit_binding with a valid name and a non-empty old binding whose
parsed form is not a key of binding-to-action raises KeyError without ever
calling save(); yet when the new binding had a previous owner, that
owner's mapping has already been detached from both views, leaving the
state partially mutated. -/
theorem c10_edit_partial_mutation (accParse : String → Binding)
    (name newB oldB : String) (st : KMState)
    (hwf : WF st) (hname : name ∈ BINDING_INFO) (hold : oldB ≠ "")
    (hob : alLookup st.binding_to_action (accParse oldB) = none) :
    errOf (edit_accel accParse name newB oldB st) = some PyErr.keyError ∧
    (resState (edit_accel accParse name newB oldB st)).saveCount
      = st.saveCount ∧
    (resState (edit_accel accParse name newB oldB st)).binding_to_action
      = alPop st.binding_to_action (accParse newB) ∧
    (∀ a, bindingsOf (resState (edit_accel accParse name newB oldB st)) a
      = match alLookup st.binding_to_action (accParse newB) with
        | some A =>
            if a = A then lrm (bindingsOf st a) (accParse newB)
            else bindingsOf st a
        | none => bindingsOf st a) := by
  have hoption : (if oldB ≠ "" then some (accParse oldB) else none)
      = some (accParse oldB) := if_pos hold
  cases hl : alLookup st.binding_to_action (accParse newB) with
  | none =>
      rw [edit_accel_none hname hl, hoption, editPhase2_keyError hob]
      refine ⟨rfl, rfl, ?_, ?_⟩
      · show st.binding_to_action = alPop st.binding_to_action (accParse newB)
        rw [alPop_of_not_mem _ _ (not_mem_alKeys_of_none hl)]
      · intro a
        rfl
  | some A =>
      rw [edit_accel_some hname hwf hl, hoption]
      set stD : KMState := { st with
        binding_to_action := alPop st.binding_to_action (accParse newB),
        action_to_bindings := alInsert st.action_to_bindings A
          (lrm (bindingsOf st A) (accParse newB)) } with hstD
      have hobne : accParse oldB ≠ accParse newB := by
        intro hh
        rw [hh, hl] at hob
        cases hob
      have hobD : alLookup stD.binding_to_action (accParse oldB) = none := by
        rw [hstD]
        show alLookup (alPop st.binding_to_action (accParse newB))
          (accParse oldB) = none
        rw [alLookup_pop_ne _ _ _ hobne]
        exact hob
      rw [editPhase2_keyError hobD]
      refine ⟨rfl, rfl, rfl, ?_⟩
      intro a
      show bindingsOf stD a
        = if a = A then lrm (bindingsOf st a) (accParse newB)
          else bindingsOf st a
      by_cases ha : a = A
      · subst ha
        rw [if_pos rfl, hstD]
        exact bindingsOf_of_a2b_insert rfl
      · rw [if_neg ha, hstD]
        exact bindingsOf_of_a2b_insert_ne rfl ha

/-- Witness for C10: editing "zoom in" with new "x" (owned by "zoom out")
and absent old "q": the call raises KeyError, but "zoom out" has already
lost (120, 0) from both views. -/
theorem c10_witness :
    errOf (edit_accel accP0 "zoom in" "x" "q" c10st) = some PyErr.keyError ∧
    (resState (edit_accel accP0 "zoom in" "x" "q" c10st)).binding_to_action
      = alPop c10st.binding_to_action (accP0 "x") ∧
    (resState (edit_accel accP0 "zoom in" "x" "q" c10st)).saveCount
      = c10st.saveCount :=
  ⟨(c10_edit_partial_mutation accP0 "zoom in" "x" "q" c10st
      (wfChk_sound (by decide)) (by decide) (by decide) (by decide)).1,
   (c10_edit_partial_mutation accP0 "zoom in" "x" "q" c10st
      (wfChk_sound (by decide)) (by decide) (by decide) (by decide)).2.2.1,
   (c10_edit_partial_mutation accP0 "zoom in" "x" "q" c10st
      (wfChk_sound (by decide)) (by decide) (by decide) (by decide)).2.1⟩

end Claims

end Mcomix
